import Mathlib

/-!
Verification of the nody backend canvas-state engine.

This file gives a shallow embedding, in Lean, of the plan-sanitization,
metadata, filesystem-reconciliation and edge-store logic of the
`backend/` Python sources (`utils.py`, `database.py`, `main.py`,
`code_generation.py`), and proves or refutes the frozen claims about it.

Modelling conventions:
* Python strings are Lean `String`s; the Python string primitives used by
  the code (`lower`, `isalnum`, `strip`, `split`, `join`, `startswith`,
  `os.path.normpath`, `os.path.basename`, `os.path.splitext`, `str(int)`)
  are re-implemented below on the character-list level, restricted to the
  ASCII fragment that `Char.toLower`/`Char.isAlphanum` support.
* Python dicts (the durable metadata document, the per-node records, the
  `used_ids`/`id_map` accumulators, the in-memory `files_db`) are modelled
  as insertion-ordered association lists with Python dict semantics:
  assignment to an existing key updates in place, a fresh key is appended.
* The filesystem under `CANVAS_DIR` is modelled as the list of relative
  paths of the files that exist (file contents are not tracked: no claim
  depends on them).  Directories are implicit.
-/

set_option maxHeartbeats 1000000

namespace Nody

/-! ### Character-level helpers -/

/-- One step of Python `value.lower()` on a single character
(`Char.toLower`, the ASCII fragment). -/
def pyLower (c : Char) : Char := c.toLower

/-! ### Splitting and joining on a separator character
(Python `str.split(sep)` / `sep.join`). -/

def splitCh (sep : Char) : List Char → List (List Char)
  | [] => [[]]
  | x :: xs =>
    match splitCh sep xs with
    | [] => [[]]
    | h :: t => if x = sep then [] :: h :: t else (x :: h) :: t

def joinCh (sep : Char) : List (List Char) → List Char
  | [] => []
  | [p] => p
  | p :: ps => p ++ sep :: joinCh sep ps

/-! ### `utils.slugify`

```python
def slugify(value: str) -> str:
    cleaned = ''.join(char if char.isalnum() else '_' for char in value.lower())
    cleaned = '_'.join(part for part in cleaned.split('_') if part)
    return cleaned or "node"
```
-/

/-- `char if char.isalnum() else '_'`. -/
def slugChar (c : Char) : Char := if c.isAlphanum then c else '_'

def slugifyL (value : List Char) : List Char :=
  let cleaned := (value.map pyLower).map slugChar
  let cleaned2 := joinCh '_' ((splitCh '_' cleaned).filter (fun p => p ≠ []))
  if cleaned2 = [] then ('n' :: 'o' :: 'd' :: 'e' :: []) else cleaned2

def slugify (value : String) : String := ⟨slugifyL value.data⟩

/-- A character is stable if both passes of the slugification pipeline fix it. -/
def charStable (c : Char) : Prop := pyLower c = c ∧ slugChar c = c

/-! ### Python path and string primitives used by the sanitizer -/

/-- Python `str.strip()` (ASCII whitespace fragment). -/
def pyStripL (l : List Char) : List Char :=
  ((l.dropWhile Char.isWhitespace).reverse.dropWhile Char.isWhitespace).reverse

def pyStrip (s : String) : String := ⟨pyStripL s.data⟩

/-- `s.replace("\\", "/")`: the pattern is a single character, so this is a
character map. -/
def slashChar (c : Char) : Char := if c = '\\' then '/' else c

def backslashToSlash (s : String) : String := ⟨s.data.map slashChar⟩

/-- Python `s.startswith(pre)`. -/
def pyStartsWith (s pre : String) : Bool := pre.data.isPrefixOf s.data

/-- Python `os.path.basename` (posix): everything after the last slash. -/
def baseNameL (l : List Char) : List Char := (splitCh '/' l).getLastD []

def baseName (s : String) : String := ⟨baseNameL s.data⟩

/-- Python `os.path.splitext` on a basename (no separators): split at the last
dot unless every character before that dot is itself a dot. -/
def splitExtL (p : List Char) : List Char × List Char :=
  let extRev := p.reverse.takeWhile (fun c => c ≠ '.')
  let restRev := p.reverse.dropWhile (fun c => c ≠ '.')
  match restRev with
  | [] => (p, [])
  | _ :: beforeRev =>
    if beforeRev.reverse.any (fun c => c ≠ '.') then
      (beforeRev.reverse, '.' :: extRev.reverse)
    else (p, [])

/-- `os.path.splitext(b)[1]` for a basename `b`. -/
def extOf (s : String) : String := ⟨(splitExtL s.data).2⟩

/-- `os.path.splitext(b)[0]` for a basename `b`. -/
def rootOf (s : String) : String := ⟨(splitExtL s.data).1⟩

/-- Python `os.path.normpath` (posix flavour), on character lists. -/
def pyNormPathL (path : List Char) : List Char :=
  if path = [] then ['.'] else
  let initialSlashes : Nat :=
    if ('/' :: '/' :: []).isPrefixOf path ∧ ¬ ('/' :: '/' :: '/' :: []).isPrefixOf path then 2
    else if ('/' :: []).isPrefixOf path then 1
    else 0
  let comps := splitCh '/' path
  let newComps := comps.foldl (fun acc comp =>
    if comp = [] ∨ comp = ['.'] then acc
    else if comp ≠ ['.', '.'] ∨ (initialSlashes = 0 ∧ acc = []) ∨
        (acc ≠ [] ∧ acc.getLast? = some ['.', '.']) then
      acc ++ [comp]
    else if acc ≠ [] then acc.dropLast
    else acc) []
  let joined := List.replicate initialSlashes '/' ++ joinCh '/' newComps
  if joined = [] then ['.'] else joined

def pyNormPath (s : String) : String := ⟨pyNormPathL s.data⟩

/-- The `while clean.startswith("nodes/"): clean = clean[6:]` prefix loop used
by `FileDatabase._resolve_file_path`, `create_file` and
`update_file_content`. -/
def stripNodesL : List Char → List Char
  | 'n' :: 'o' :: 'd' :: 'e' :: 's' :: '/' :: rest => stripNodesL rest
  | l => l

def stripNodes (s : String) : String := ⟨stripNodesL s.data⟩

/-- Python `str(n)` for a non-negative integer: decimal digits. -/
def digitChar (d : Nat) : Char := Char.ofNat (48 + d)

def natDigitsF : Nat → Nat → List Char
  | 0, n => [digitChar n]
  | fuel + 1, n =>
    if n < 10 then [digitChar n] else natDigitsF fuel (n / 10) ++ [digitChar (n % 10)]

def natDigits (n : Nat) : List Char := natDigitsF n n

def pyStrNat (n : Nat) : String := ⟨natDigits n⟩

/-- Decimal parsing, inverse to `natDigits`. -/
def parseStep (a : Nat) (c : Char) : Nat := a * 10 + (c.toNat - 48)

/-! ### Python truthiness and dict primitives

Python dicts are modelled as insertion-ordered association lists: assignment
to a present key updates in place, a fresh key is appended; `del` removes the
key; lookup returns the (unique) binding. -/

/-- Python `a or b` on optional strings (`None` and `""` are falsy). -/
def pyOr (a b : Option String) : Option String :=
  match a with
  | some s => if s = "" then b else some s
  | none => b

def pyTruthy : Option String → Bool
  | some s => s ≠ ""
  | none => false

def strLower (s : String) : String := ⟨s.data.map pyLower⟩

def pyIn (sub s : String) : Bool := decide (sub.data <:+: s.data)

def optStr (o : Option String) : String := o.getD ""

def getKey? {α : Type} (m : List (String × α)) (k : String) : Option α :=
  (m.find? (fun p => p.1 = k)).map Prod.snd

def setKey {α : Type} (m : List (String × α)) (k : String) (v : α) : List (String × α) :=
  if m.any (fun p => p.1 = k) then m.map (fun p => if p.1 = k then (k, v) else p)
  else m ++ [(k, v)]

def delKey {α : Type} (m : List (String × α)) (k : String) : List (String × α) :=
  m.filter (fun p => p.1 ≠ k)

def keys {α : Type} (m : List (String × α)) : List String := m.map Prod.fst

/-! ### Project specification and plan data

The project specification and the raw plan are JSON documents; we give them
the typed shape the code reads out of them.  A `none` entry in a raw list
models a non-dict member (skipped by the code). -/

structure Feature where
  name : Option String
  description : Option String
  acceptance_criteria : List String
deriving DecidableEq

structure TechStack where
  frontend : Option String
  backend : Option String
  api : Option String
  infrastructure : Option String
deriving DecidableEq

structure ProjectSpec where
  title : Option String
  summary : Option String
  primary_features : List Feature
  goals : List String
  technical_stack : Option TechStack
deriving DecidableEq

structure CFile where
  id : String
  file_name : String
  label : String
  description : String
deriving DecidableEq

structure CEdge where
  from_ : String
  to_ : String
  type : String
  description : String
deriving DecidableEq

structure Plan where
  files : List CFile
  edges : List CEdge
deriving DecidableEq

structure RawEntry where
  id : Option String
  file_name : Option String
  path : Option String
  name : Option String
  label : Option String
  description : Option String
deriving DecidableEq

structure RawEdgeEntry where
  from_ : Option String
  source : Option String
  to_ : Option String
  target : Option String
  type : Option String
  description : Option String
deriving DecidableEq

structure RawPlan where
  files : Option (List (Option RawEntry))
  edges : Option (List (Option RawEdgeEntry))
deriving DecidableEq

/-! ### `utils.infer_default_extension`, `utils.infer_file_type_from_name`,
`utils.position_for_index` -/

def infer_default_extension (project_spec : ProjectSpec) : String :=
  let stack := project_spec.technical_stack.getD ⟨none, none, none, none⟩
  let combined := strLower (optStr stack.frontend ++ " " ++ optStr stack.backend ++ " " ++
    optStr stack.api ++ " " ++ optStr stack.infrastructure)
  if ["python", "fastapi", "django", "flask"].any (fun kw => pyIn kw combined) then ".py"
  else if ["typescript", "next", "react", "angular"].any (fun kw => pyIn kw combined) then ".tsx"
  else if pyIn "javascript" combined || pyIn "node" combined || pyIn "express" combined then ".js"
  else if pyIn "go" combined then ".go"
  else if pyIn "java" combined || pyIn "spring" combined then ".java"
  else if pyIn "c#" combined || pyIn "dotnet" combined then ".cs"
  else if pyIn "swift" combined then ".swift"
  else if pyIn "kotlin" combined then ".kt"
  else ".txt"

/-- `config.FILE_TYPE_MAP`. -/
def FILE_TYPE_MAP : List (String × String) :=
  [(".py", "python"), (".js", "javascript"), (".ts", "typescript"), (".json", "json"),
   (".html", "html"), (".css", "css"), (".md", "markdown"), (".txt", "text")]

/-- `os.path.splitext(p)[1]` on a full path: the dot logic applies to the
segment after the last slash. -/
def extOfPath (s : String) : String := extOf (baseName s)

def infer_file_type_from_name (file_name : String) : String :=
  let ext := strLower (extOfPath file_name)
  ((FILE_TYPE_MAP.find? (fun p => p.1 = ext)).map Prod.snd).getD "text"

/-- `utils.position_for_index` with the `config` constants
`CANVAS_COLUMNS = 4`, `CANVAS_X_SPACING = 260`, `CANVAS_Y_SPACING = 200`,
`CANVAS_MARGIN_X = 160`, `CANVAS_MARGIN_Y = 140` inlined. -/
def position_for_index (index : Nat) : Int × Int :=
  let row := index / 4
  let column := index % 4
  (160 + (column : Int) * 260, 140 + (row : Int) * 200)

/-! ### `utils.generate_default_edges` -/

def generate_default_edges (node_files : List CFile) : List CEdge :=
  if node_files.length < 2 then []
  else node_files.flatMap (fun source =>
    (node_files.filter (fun target => target.id ≠ source.id)).map (fun target =>
      { from_ := source.id, to_ := target.id, type := "depends_on",
        description := target.label ++ " consumes outputs from " ++ source.label ++
          " to stay in sync." }))

/-! ### `utils.fallback_metadata_plan` -/

def joinLines (lines : List String) : String :=
  "\n".intercalate (lines.filter (fun line => line ≠ ""))

def frontend_extension (frontend_stack : String) : String :=
  if ["tsx", "react", "next", "typescript"].any (fun kw => pyIn kw frontend_stack) then ".tsx"
  else if pyIn "vue" frontend_stack then ".vue"
  else if pyIn "svelte" frontend_stack then ".svelte"
  else ".js"

def backend_extension (backend_stack extension : String) : String :=
  if ["python", "fastapi", "flask", "django"].any (fun kw => pyIn kw backend_stack) then ".py"
  else if ["typescript", "node", "express"].any (fun kw => pyIn kw backend_stack) then ".ts"
  else if pyIn "javascript" backend_stack then ".js"
  else if pyIn "go" backend_stack then ".go"
  else if pyIn "java" backend_stack then ".java"
  else extension

def fallback_metadata_plan (project_spec : ProjectSpec) : Plan :=
  let features := project_spec.primary_features
  let goals := project_spec.goals
  let extension := infer_default_extension project_spec
  let stack := project_spec.technical_stack.getD ⟨none, none, none, none⟩
  let frontend_stack := strLower (optStr stack.frontend)
  let backend_stack := strLower (optStr stack.backend)
  let title := project_spec.title.getD "App"
  let base_slug := slugify title
  let feature_summaries := features.map (fun feature =>
    pyStrip ("- " ++ optStr (pyOr feature.name (some "Feature")) ++ ": " ++
      optStr (pyOr feature.description (some ""))))
  let feature_acceptance := features.flatMap (fun feature =>
    feature.acceptance_criteria.map (fun criterion => pyStrip ("- " ++ criterion)))
  let goal_lines := goals.map (fun goal => pyStrip ("- " ++ goal))
  let node_files : List CFile :=
    if frontend_stack ≠ "" then
      let front_ext := frontend_extension frontend_stack
      let primary_feature := features.head?
      let primary_feature_name := (primary_feature.map (fun f => f.name.getD title)).getD title
      let feature_description := (primary_feature.map (fun f => f.description.getD "")).getD ""
      [{ id := base_slug ++ "_frontend_page",
         file_name := "frontend/app/" ++ base_slug ++ "/page" ++ front_ext,
         label := title ++ " Page",
         description := joinLines [
           "Top-level " ++ strLower primary_feature_name ++ " interface built with " ++
             (stack.frontend.getD "the frontend stack") ++ ".",
           feature_description,
           "Primary features:",
           joinLines feature_summaries,
           "Acceptance criteria:",
           joinLines feature_acceptance,
           "Project goals:",
           joinLines goal_lines,
           "Connect to the frontend API client for persistence."] },
       { id := base_slug ++ "_canvas_component",
         file_name := "frontend/components/" ++ base_slug ++ "_canvas" ++ front_ext,
         label := primary_feature_name ++ " Component",
         description := joinLines [
           "Encapsulates the interactive canvas for " ++ strLower primary_feature_name ++ ".",
           "Expose props for selected color, stroke width, and callbacks for draw/save events.",
           "Emit drawing data to the API client using hooks so the backend can persist PNG exports.",
           "Keep the UI accessible for young users (keyboard shortcuts optional, large touch targets)."] },
       { id := base_slug ++ "_frontend_api",
         file_name := "frontend/lib/" ++ base_slug ++ "_api.ts",
         label := "Frontend API Client",
         description := joinLines [
           "Client-side wrapper for calling the drawing REST endpoints.",
           "Expose functions to save drawings, retrieve saved artworks, and manage session metadata.",
           "Handle optimistic updates and graceful fallbacks when the backend is offline."] }]
    else []
  let node_files := node_files ++
    (if features ≠ [] then
      (features.enum.flatMap (fun pair =>
        let index := pair.1 + 1
        let feature := pair.2
        let feature_slug := slugify (optStr (pyOr feature.name (some ("feature_" ++ pyStrNat index))))
        if backend_stack ≠ "" then
          let back_ext := backend_extension backend_stack extension
          [{ id := feature_slug ++ "_api",
             file_name := "backend/api/" ++ feature_slug ++ "_routes" ++ back_ext,
             label := (feature.name.getD "Feature") ++ " API",
             description := joinLines [
               "REST endpoints for the " ++ strLower (feature.name.getD "") ++ " functionality.",
               feature.description.getD "",
               "Implement POST endpoint to persist drawing data and GET endpoint to list saved art.",
               "Validate input payloads, handle storage (local filesystem or in-memory), and return meaningful errors."] },
           { id := feature_slug ++ "_service",
             file_name := "backend/services/" ++ feature_slug ++ "_service" ++ back_ext,
             label := (feature.name.getD "Feature") ++ " Service",
             description := joinLines [
               "Business logic for processing drawing commands:",
               "- Normalize stroke data and colors before persistence.",
               "- Coordinate image export to PNG using a pillow/canvas helper module.",
               "- Provide utility helpers for the API layer."] }]
        else [])) ++
      (if backend_stack ≠ "" then
        let back_ext := backend_extension backend_stack extension
        [{ id := base_slug ++ "_storage",
           file_name := "backend/storage/" ++ base_slug ++ "_store" ++ back_ext,
           label := "Storage Integration",
           description := joinLines [
             "Abstraction over persistence (local filesystem now, extensible to cloud storage later).",
             "Expose save_drawing, list_drawings, and load_drawing helpers used by services and APIs.",
             "Handle the directory structure, file naming, and basic retention policy."] },
         { id := base_slug ++ "_schema",
           file_name := "backend/schemas/" ++ base_slug ++ "_schema" ++ back_ext,
           label := "Request/Response Schemas",
           description := joinLines [
             "Pydantic (or equivalent) models defining request payloads and responses for drawing endpoints.",
             "Include validation for brush size, color hex codes, and drawing metadata (title, created_at).",
             "Reuse schema definitions in both API routes and services to stay type-safe."] }]
      else [])
    else [])
  let node_files : List CFile := if node_files = [] then
      let base_name := base_slug
      let file_name := "backend/" ++ base_name ++ extension
      [{ id := base_name, file_name := file_name, label := baseName file_name,
         description := project_spec.summary.getD "Implement the main application entrypoint." }]
    else node_files
  let launcher_present := node_files.any (fun entry => entry.file_name = "scripts/run_app.sh")
  let node_files := if launcher_present then node_files else node_files ++
      [{ id := base_slug ++ "_launcher", file_name := "scripts/run_app.sh",
         label := "Run App Script",
         description := "\n".intercalate [
           "Shell script that boots both FastAPI backend (uvicorn) and Next.js frontend dev server.",
           "Ensure POSIX compatibility: use `bash` or WSL on Windows.",
           "Start backend in virtualenv if available, then frontend via npm/pnpm/yarn. Clean up both on exit."] }]
  { files := node_files, edges := generate_default_edges node_files }

/-! ### `utils.sanitize_plan` -/

structure SanState where
  sanitized_files : List CFile
  id_map : List (String × String)
  used_ids : List (String × Nat)
deriving DecidableEq

/-- One iteration of the first (file) loop of `sanitize_plan`.  The alias
keys are inserted as a deduplicated list in source order (the Python code
iterates over a `set its iteration order is unspecified`); no claim depends
on the insertion order of the alias index. -/
def sanitizeEntry (project_spec : ProjectSpec) (default_extension : String)
    (st : SanState) (entry? : Option RawEntry) : SanState :=
  match entry? with
  | none => st
  | some entry =>
    let raw_file_name? := pyOr (pyOr (pyOr entry.file_name entry.path) entry.name) entry.label
    if ¬ pyTruthy raw_file_name? then st
    else
      let raw_file_name := raw_file_name?.getD ""
      let file_name := backslashToSlash (pyStrip raw_file_name)
      if file_name = "" then st
      else
        let file_name :=
          if extOf (baseName file_name) = "" then file_name ++ default_extension else file_name
        let normalized_path := backslashToSlash (pyNormPath file_name)
        if pyStartsWith normalized_path ".." then st
        else
          let base_id_source := optStr (pyOr entry.id (some (rootOf (baseName normalized_path))))
          let node_id₀ := slugify base_id_source
          let next :=
            match getKey? st.used_ids node_id₀ with
            | some cnt => (node_id₀ ++ "_" ++ pyStrNat (cnt + 1), setKey st.used_ids node_id₀ (cnt + 1))
            | none => (node_id₀, setKey st.used_ids node_id₀ 1)
          let node_id := next.1
          let used_ids := next.2
          let label := optStr (pyOr entry.label (some (baseName normalized_path)))
          let description := optStr (pyOr entry.description (some (project_spec.summary.getD "")))
          let sanitized_files := st.sanitized_files ++
            [{ id := node_id, file_name := normalized_path, label := label,
               description := description }]
          let alias_keys := ([entry.id, some raw_file_name, some normalized_path,
            some (baseName normalized_path), some node_id].filterMap id).dedup
          let id_map := alias_keys.foldl (fun m key =>
            if key ≠ "" then setKey m (strLower key) node_id else m) st.id_map
          { sanitized_files := sanitized_files, id_map := id_map, used_ids := used_ids }

def sanitizeFilesPass (raw_files : List (Option RawEntry)) (project_spec : ProjectSpec) :
    SanState :=
  let default_extension := infer_default_extension project_spec
  raw_files.foldl (sanitizeEntry project_spec default_extension) ⟨[], [], []⟩

/-- The second (edge) loop of `sanitize_plan`. -/
def sanitizeEdgesPass (raw_edges : List (Option RawEdgeEntry)) (id_map : List (String × String))
    (label_map : List (String × String)) : List CEdge :=
  raw_edges.foldl (fun acc entry? =>
    match entry? with
    | none => acc
    | some entry =>
      let raw_from := pyOr entry.from_ entry.source
      let raw_to := pyOr entry.to_ entry.target
      if ¬ pyTruthy raw_from ∨ ¬ pyTruthy raw_to then acc
      else
        match getKey? id_map (strLower (raw_from.getD "")),
            getKey? id_map (strLower (raw_to.getD "")) with
        | some from_id, some to_id =>
          if from_id = "" ∨ to_id = "" ∨ from_id = to_id then acc
          else
            let edge_type := optStr (pyOr entry.type (some "depends_on"))
            let description := optStr (pyOr entry.description (some
              ((getKey? label_map from_id).getD "" ++ " interacts with " ++
                (getKey? label_map to_id).getD "" ++ ".")))
            acc ++ [{ from_ := from_id, to_ := to_id, type := edge_type,
                      description := description }]
        | _, _ => acc) []

def sanitize_plan (plan_data : RawPlan) (project_spec : ProjectSpec) : Plan :=
  match plan_data.files with
  | none => fallback_metadata_plan project_spec
  | some raw_files =>
    if raw_files = [] then fallback_metadata_plan project_spec
    else
      let st := sanitizeFilesPass raw_files project_spec
      if st.sanitized_files = [] then fallback_metadata_plan project_spec
      else
        let label_map := st.sanitized_files.foldl (fun m file => setKey m file.id file.label) []
        let sanitized_edges :=
          match plan_data.edges with
          | some raw_edges => sanitizeEdgesPass raw_edges st.id_map label_map
          | none => []
        let sanitized_edges :=
          if sanitized_edges = [] then generate_default_edges st.sanitized_files
          else sanitized_edges
        { files := st.sanitized_files, edges := sanitized_edges }

/-! ### The durable metadata document, the filesystem and the in-memory index

`database.py` keeps three mutually-synchronized representations: the durable
`metadata.json` document (a dict of per-node record dicts), the physical
files under `CANVAS_DIR`, and the in-memory `files_db` map.  Records are
heterogeneous JSON dicts; we embed their values as `Val`. -/

inductive Val where
  | null : Val
  | s : String → Val
  | n : Int → Val
  | b : Bool → Val
  | strs : List String → Val
deriving DecidableEq

/-- `models.FileNode` (pydantic defaults inlined). -/
structure FileNode where
  id : String
  type : String := "file"
  label : String
  x : Int
  y : Int
  status : String := "idle"
  filePath : Option String := none
  fileType : Option String := none
  content : Option String := none
  isExpanded : Bool := false
  isModified : Bool := false
  parentFolder : Option String := none
  category : Option String := none
deriving DecidableEq

/-- The state owned by `FileDatabase` plus the physical filesystem: the
parsed `metadata.json` document, the list of existing file paths relative to
`CANVAS_DIR`, and the in-memory `files_db`.  File contents are not tracked
(no claim depends on them), so `content` fields are modelled as `""`. -/
structure DbState where
  metadata : List (String × (List (String × Val)))
  fs : List String
  files_db : List (String × FileNode)
deriving DecidableEq

/-- String lookup in a record: absent keys, nulls and non-strings give
`none`. -/
def getStr (r : List (String × Val)) (k : String) : Option String :=
  match getKey? r k with
  | some (Val.s v) => some v
  | _ => none

/-- `node_meta.get(k, d)` for a numeric field. -/
def getNum (r : List (String × Val)) (k : String) (d : Int) : Int :=
  match getKey? r k with
  | some (Val.n v) => v
  | _ => d

/-- `str(x)` applied to an optional string (Python prints `None`). -/
def pyShowOptStr : Option String → String
  | some s => s
  | none => "None"

/-- `FileDatabase._resolve_file_path`: strip every `nodes/` prefix, return
the path if the file exists, otherwise search the tree for a basename match,
otherwise create an (empty) placeholder at the cleaned path. -/
def resolve_file_path (file_name : String) (fs : List String) : String × List String :=
  let clean_file_name := stripNodes file_name
  if clean_file_name ∈ fs then (clean_file_name, fs)
  else
    match fs.find? (fun p => baseName p = baseName file_name) with
    | some p => (p, fs)
    | none => (clean_file_name, fs ++ [clean_file_name])

/-- `node_meta.get("fileName") or f"{node_id}.txt"`. -/
def recFileName (node_id : String) (r : List (String × Val)) : String :=
  match getKey? r "fileName" with
  | some (Val.s v) => if v = "" then node_id ++ ".txt" else v
  | _ => node_id ++ ".txt"

/-- `FileDatabase._create_or_update_file_node`: default the file name
(mutating the record when the key is absent), resolve/materialize the path,
and create or update the in-memory node. -/
def create_or_update_file_node (node_id : String) (r : List (String × Val))
    (fs : List String) (fdb : List (String × FileNode)) :
    (List (String × Val)) × List String × List (String × FileNode) :=
  let file_name := recFileName node_id r
  let r := if (getKey? r "fileName").isSome then r else setKey r "fileName" (Val.s file_name)
  let res := resolve_file_path file_name fs
  let file_path := res.1
  let fs := res.2
  let file_type := infer_file_type_from_name (baseName file_path)
  let parentFolder := getStr r "parentFolder"
  let node := match getKey? fdb node_id with
    | some existing =>
      { existing with label := baseName file_path, filePath := some file_name,
                      fileType := some file_type, content := some "",
                      x := getNum r "x" existing.x, y := getNum r "y" existing.y,
                      parentFolder := parentFolder }
    | none =>
      { id := node_id, label := baseName file_path, type := "file",
        filePath := some file_name, fileType := some file_type, content := some "",
        x := getNum r "x" 0, y := getNum r "y" 0, status := "idle",
        isExpanded := false, isModified := false, parentFolder := parentFolder,
        category := none }
  (r, fs, setKey fdb node_id node)

/-- `FileDatabase.refresh_files_from_metadata` applied to a given document:
walk the document in order, reconcile every `type == "file"` record (which
can add a defaulted `fileName` key to the record and materialize a
placeholder file), then drop in-memory nodes whose ids are no longer file
records.  `refreshStep` is the body of the reconciliation loop. -/
def refreshStep (acc : DbState) (entry : String × (List (String × Val))) : DbState :=
  if getKey? entry.2 "type" = some (Val.s "file") then
    let res := create_or_update_file_node entry.1 entry.2 acc.fs acc.files_db
    { metadata := acc.metadata ++ [(entry.1, res.1)], fs := res.2.1, files_db := res.2.2 }
  else { acc with metadata := acc.metadata ++ [entry] }

def refresh_files_from_metadata (md : List (String × (List (String × Val))))
    (fs : List String) (fdb : List (String × FileNode)) : DbState :=
  let step := md.foldl refreshStep { metadata := [], fs := fs, files_db := fdb }
  let active := (md.filter (fun e => getKey? e.2 "type" = some (Val.s "file"))).map Prod.fst
  { step with files_db := step.files_db.filter (fun p => p.1 ∈ active) }

/-- `FileDatabase.save_metadata`: reconcile, then write the (possibly
mutated) document. -/
def save_metadata (db : DbState) (md : List (String × (List (String × Val)))) : DbState :=
  refresh_files_from_metadata md db.fs db.files_db

/-- `FileDatabase.update_node_metadata`: rebuild the record with the five
fixed fields first, preserving every other field of the existing record. -/
def update_node_metadata (db : DbState) (node_id node_type description : String)
    (x y : Int) : DbState :=
  let metadata := db.metadata
  let existing_data := (getKey? metadata node_id).getD []
  let newRec : List (String × Val) :=
    [("id", Val.s node_id), ("type", Val.s node_type), ("description", Val.s description),
     ("x", Val.n x), ("y", Val.n y)] ++
    existing_data.filter (fun p => p.1 ∉ ["id", "type", "description", "x", "y"])
  save_metadata db (setKey metadata node_id newRec)

def remove_node_metadata (db : DbState) (node_id : String) : DbState :=
  if (getKey? db.metadata node_id).isSome then
    save_metadata db (delKey db.metadata node_id)
  else db

/-- `FileDatabase.update_file_position`: move the in-memory node, re-read
the stored description so a position update does not clobber it, and upsert
the five fixed fields. -/
def update_file_position (db : DbState) (file_id : String) (x y : Int) :
    Except String DbState :=
  match getKey? db.files_db file_id with
  | none => .error "File not found"
  | some node =>
    let node := { node with x := x, y := y }
    let db := { db with files_db := setKey db.files_db file_id node }
    let existing_description :=
      match getStr ((getKey? db.metadata file_id).getD []) "description" with
      | some d => d
      | none => "File: " ++ pyShowOptStr node.filePath ++ " (" ++
          pyShowOptStr node.fileType ++ ")"
    .ok (update_node_metadata db file_id "file" existing_description x y)

/-- `FileDatabase.update_file_description`: upsert with the in-memory
node's position. -/
def update_file_description (db : DbState) (file_id : String) (description : String) :
    Except String DbState :=
  match getKey? db.files_db file_id with
  | none => .error "File not found"
  | some node => .ok (update_node_metadata db file_id "file" description node.x node.y)

/-- `models.FileCreate` (the endpoint always fills every key of the dict it
hands to `FileDatabase.create_file`, so the `.get(key, default)` calls on
that dict always find the key). -/
structure FileCreateData where
  filePath : String
  fileType : String
  content : String := ""
  description : String := ""
  category : Option String := none
deriving DecidableEq

/-- `FileDatabase.create_file`. -/
def FileDatabase.create_file (db : DbState) (d : FileCreateData) :
    Except String (DbState × FileNode) :=
  if db.files_db.any (fun p => p.2.filePath = some d.filePath) then
    .error ("File with name \x27" ++ d.filePath ++ "\x27 already exists")
  else
    let file_id := pyStrNat (db.files_db.length + 1)
    let new_file : FileNode :=
      { id := file_id, label := baseName d.filePath, x := 100, y := 100,
        filePath := some d.filePath, fileType := some d.fileType,
        content := some d.content }
    let db := { db with files_db := setKey db.files_db file_id new_file }
    let clean_file_path := stripNodes d.filePath
    let db := { db with fs :=
      if clean_file_path ∈ db.fs then db.fs else db.fs ++ [clean_file_path] }
    let final_description := d.description
    let db := update_node_metadata db file_id "file" final_description 100 100
    let db :=
      match getKey? db.metadata file_id with
      | some r =>
        save_metadata db (setKey db.metadata file_id (setKey r "fileName" (Val.s d.filePath)))
      | none => db
    .ok (db, new_file)

/-- `FileDatabase.delete_file`: look the node up in the durable document,
unlink `CANVAS_DIR / fileName` (the raw stored name, unstripped), drop the
record, drop the in-memory node. -/
def FileDatabase.delete_file (db : DbState) (file_id : String) : Except String DbState :=
  match getKey? db.metadata file_id with
  | none => .error "File not found"
  | some node_meta =>
    let file_name := match getKey? node_meta "fileName" with
      | some (Val.s v) => v
      | _ => file_id ++ ".txt"
    let db := { db with fs := if file_name ∈ db.fs then db.fs.erase file_name else db.fs }
    let db := remove_node_metadata db file_id
    let db := { db with files_db :=
      if (getKey? db.files_db file_id).isSome then delKey db.files_db file_id
      else db.files_db }
    .ok db

/-! ### The HTTP-layer operations (`main.py`) and the bulk apply
(`code_generation.py`)

The full engine state adds the durable edges document. -/

structure Sys where
  db : DbState
  edges : List CEdge
deriving DecidableEq

/-- Truthy string lookup (`r.get(k)` used in a boolean position: `None` and
`""` are falsy). -/
def getStrT (r : List (String × Val)) (k : String) : Option String :=
  match getStr r k with
  | some v => if v = "" then none else some v
  | none => none

/-- `models.FolderCreate` (pydantic defaults inlined). -/
structure FolderCreateData where
  name : String
  x : Int := 100
  y : Int := 100
  width : Int := 600
  height : Int := 400
  parentFolder : Option String := none
deriving DecidableEq

/-- `POST /folders` (`create_folder`): the folder id counts the existing
`folder_`-prefixed keys; the directory creation itself is implicit in the
filesystem model. -/
def create_folder (db : DbState) (fc : FolderCreateData) : DbState :=
  let metadata := db.metadata
  let folder_id := "folder_" ++
    pyStrNat ((metadata.filter (fun e => pyStartsWith e.1 "folder_")).length + 1)
  let folder_data : List (String × Val) :=
    [("id", Val.s folder_id), ("type", Val.s "folder"), ("name", Val.s fc.name),
     ("x", Val.n fc.x), ("y", Val.n fc.y), ("width", Val.n fc.width),
     ("height", Val.n fc.height), ("isExpanded", Val.b true),
     ("containedFiles", Val.strs []),
     ("parentFolder", match fc.parentFolder with | some p => Val.s p | none => Val.null),
     ("description", Val.s ("Folder: " ++ fc.name)), ("folderPath", Val.s fc.name)]
  save_metadata db (setKey metadata folder_id folder_data)

/-- `models.FolderUpdate`. -/
structure FolderUpdateData where
  name : Option String := none
  x : Option Int := none
  y : Option Int := none
  width : Option Int := none
  height : Option Int := none
  isExpanded : Option Bool := none
  containedFiles : Option (List String) := none
deriving DecidableEq

/-- `PUT /folders/folder_id` (`update_folder`). -/
def update_folder (db : DbState) (folder_id : String) (fu : FolderUpdateData) :
    Except String DbState :=
  match getKey? db.metadata folder_id with
  | none => .error "Folder not found"
  | some r =>
    if getKey? r "type" ≠ some (Val.s "folder") then .error "Folder not found"
    else
      let r := match fu.name with | some v => setKey r "name" (Val.s v) | none => r
      let r := match fu.x with | some v => setKey r "x" (Val.n v) | none => r
      let r := match fu.y with | some v => setKey r "y" (Val.n v) | none => r
      let r := match fu.width with | some v => setKey r "width" (Val.n v) | none => r
      let r := match fu.height with | some v => setKey r "height" (Val.n v) | none => r
      let r := match fu.isExpanded with | some v => setKey r "isExpanded" (Val.b v) | none => r
      let r := match fu.containedFiles with
        | some v => setKey r "containedFiles" (Val.strs v)
        | none => r
      .ok (save_metadata db (setKey db.metadata folder_id r))

/-- `DELETE /folders/folder_id` (`delete_folder`): remove the folder
directory from disk, drop the folder from a local copy of the document,
delete every file whose `parentFolder` is the folder (each `delete_file`
call re-reads and re-writes the durable document), then commit the local
copy.  No edge is touched. -/
def delete_folder (s : Sys) (folder_id : String) : Except String Sys :=
  match getKey? s.db.metadata folder_id with
  | none => .error "Folder not found"
  | some rec0 =>
    if getKey? rec0 "type" ≠ some (Val.s "folder") then .error "Folder not found"
    else
      let metadata := s.db.metadata
      let folder_name := (getStr rec0 "name").getD ""
      let db := s.db
      let db := if folder_name ≠ "" then
          { db with fs := db.fs.filter (fun p => ¬ pyStartsWith p (folder_name ++ "/")) }
        else db
      let metadata := delKey metadata folder_id
      let files_to_delete := (metadata.filter (fun e =>
          getKey? e.2 "parentFolder" = some (Val.s folder_id))).map Prod.fst
      let step := files_to_delete.foldl (fun acc fid =>
          match FileDatabase.delete_file acc.1 fid with
          | .ok db' => (db', delKey acc.2 fid)
          | .error _ => acc)
        (db, metadata)
      .ok { s with db := save_metadata step.1 step.2 }

/-- `PUT /files/file_id/folder` (`move_file_to_folder`). -/
def move_file_to_folder (s : Sys) (file_id : String) (folder_id : Option String) :
    Except String Sys :=
  let metadata := s.db.metadata
  match getKey? metadata file_id with
  | none => .error "File not found"
  | some r =>
    let db := s.db
    let file_name := (getStr r "fileName").getD ""
    let moved :=
      if file_name ≠ "" then
        let base_file_name := baseName file_name
        let old_folder_id := getStrT r "parentFolder"
        let old_folder_name := match old_folder_id with
          | some oid => match getKey? metadata oid with
            | some fr => getStrT fr "name"
            | none => none
          | none => none
        let old_file_path := match old_folder_name with
          | some nm => nm ++ "/" ++ base_file_name
          | none => base_file_name
        let new_folder_name := match folder_id with
          | some fid => if fid = "" then none else
              match getKey? metadata fid with
              | some fr => getStrT fr "name"
              | none => none
          | none => none
        let new_file_path := match new_folder_name with
          | some nm => nm ++ "/" ++ base_file_name
          | none => base_file_name
        if old_file_path ∈ db.fs ∧ old_file_path ≠ new_file_path then
          let fs := db.fs.erase old_file_path
          let fs := if new_file_path ∈ fs then fs else fs ++ [new_file_path]
          let r := setKey r "fileName" (match new_folder_name with
            | some nm => Val.s (nm ++ "/" ++ base_file_name)
            | none => Val.s base_file_name)
          ({ db with fs := fs }, r)
        else (db, r)
      else (db, r)
    let db := moved.1
    let r := moved.2
    let metadata := setKey metadata file_id r
    let old_folder_id := getStrT r "parentFolder"
    let r := setKey r "parentFolder"
      (match folder_id with | some f => Val.s f | none => Val.null)
    let metadata := setKey metadata file_id r
    let metadata := match old_folder_id with
      | some oid => match getKey? metadata oid with
        | some fr => match getKey? fr "containedFiles" with
          | some (Val.strs xs) =>
            setKey metadata oid (setKey fr "containedFiles"
              (Val.strs (xs.filter (fun v => v ≠ file_id))))
          | _ => metadata
        | none => metadata
      | none => metadata
    let metadata := match folder_id with
      | some fid =>
        if fid = "" then metadata else
        match getKey? metadata fid with
        | some fr =>
          let xs := match getKey? fr "containedFiles" with
            | some (Val.strs xs) => xs
            | _ => ([] : List String)
          let xs := if file_id ∈ xs then xs else xs ++ [file_id]
          setKey metadata fid (setKey fr "containedFiles" (Val.strs xs))
        | none => metadata
      | none => metadata
    .ok { s with db := save_metadata db metadata }

/-- `POST /edges` (`create_edge`), single-edge branch: the duplicate check
compares only `from` and `to` — the `type` is not part of the key. -/
def create_edge (s : Sys) (edge_data : CEdge) : Except String Sys :=
  if s.edges.any (fun e => e.from_ = edge_data.from_ ∧ e.to_ = edge_data.to_) then
    .error "Edge already exists"
  else .ok { s with edges := s.edges ++ [edge_data] }

/-- `POST /edges` with an `edges` key: overwrite the document. -/
def set_edges (s : Sys) (edges : List CEdge) : Sys := { s with edges := edges }

/-- `DELETE /edges` (`delete_edge`): remove by the full `(from, to, type)`
key (the 404 branch when nothing matched is ignored here). -/
def delete_edge (s : Sys) (from_node to_node edge_type : String) : Sys :=
  { s with edges := s.edges.filter (fun e =>
      ¬ (e.from_ = from_node ∧ e.to_ = to_node ∧ e.type = edge_type)) }

/-- The metadata-payload/file-writing loop of
`CodeGenerationService.prepare_project_workspace`, applied to the canonical
files of a sanitized plan; returns the committed project metadata document
and the files written in the project's `nodes/` directory.  No id or path
deduplication is performed. -/
def prepare_project_payload (files_plan : List CFile) (project_spec : ProjectSpec) :
    (List (String × (List (String × Val)))) × List String :=
  (files_plan.enum).foldl (fun acc pair =>
    let index := pair.1
    let file_entry := pair.2
    if file_entry.file_name = "" then acc
    else
      let file_name := pyStrip file_entry.file_name
      if file_name = "" then acc
      else
        let file_name :=
          if ¬ pyIn "." (baseName file_name) then file_name ++ ".txt" else file_name
        let normalized_path := pyNormPath file_name
        if pyStartsWith normalized_path ".." then acc
        else
          let file_name := backslashToSlash normalized_path
          let node_id := slugify (if file_entry.id = "" then file_name else file_entry.id)
          let description :=
            if file_entry.description = "" then project_spec.summary.getD ""
            else file_entry.description
          let pos := position_for_index index
          (setKey acc.1 node_id
            [("id", Val.s node_id), ("type", Val.s "file"),
             ("description", Val.s description), ("x", Val.n pos.1), ("y", Val.n pos.2),
             ("fileName", Val.s file_name),
             ("fileType", Val.s (infer_file_type_from_name file_name)),
             ("content", Val.s "")],
           if file_name ∈ acc.2 then acc.2 else acc.2 ++ [file_name]))
    ([], [])

/-- The committed-state transitions of the engine: every HTTP-layer
operation, with failed operations leaving the state unchanged.  A bulk plan
apply (`prepare_project_workspace`) commits a fresh project workspace whose
documents become the workspace documents. -/
inductive Op where
  | createFile (d : FileCreateData)
  | createFolder (d : FolderCreateData)
  | updateFolder (folder_id : String) (d : FolderUpdateData)
  | updateNodeMeta (node_id node_type description : String) (x y : Int)
  | updatePosition (file_id : String) (x y : Int)
  | updateDescription (file_id : String) (description : String)
  | moveFile (file_id : String) (folder_id : Option String)
  | deleteFile (file_id : String)
  | deleteFolder (folder_id : String)
  | addEdge (e : CEdge)
  | setEdgesOp (es : List CEdge)
  | deleteEdgeOp (from_node to_node edge_type : String)
  | applyPlan (plan : RawPlan) (spec : ProjectSpec)

def applyOp (s : Sys) : Op → Sys
  | .createFile d =>
    match FileDatabase.create_file s.db d with
    | .ok r => { s with db := r.1 }
    | .error _ => s
  | .createFolder d => { s with db := create_folder s.db d }
  | .updateFolder folder_id d =>
    match update_folder s.db folder_id d with
    | .ok db => { s with db := db }
    | .error _ => s
  | .updateNodeMeta node_id node_type description x y =>
    { s with db := update_node_metadata s.db node_id node_type description x y }
  | .updatePosition file_id x y =>
    match update_file_position s.db file_id x y with
    | .ok db => { s with db := db }
    | .error _ => s
  | .updateDescription file_id description =>
    match update_file_description s.db file_id description with
    | .ok db => { s with db := db }
    | .error _ => s
  | .moveFile file_id folder_id =>
    match move_file_to_folder s file_id folder_id with
    | .ok s => s
    | .error _ => s
  | .deleteFile file_id =>
    match FileDatabase.delete_file s.db file_id with
    | .ok db => { s with db := db }
    | .error _ => s
  | .deleteFolder folder_id =>
    match delete_folder s folder_id with
    | .ok s => s
    | .error _ => s
  | .addEdge e =>
    match create_edge s e with
    | .ok s => s
    | .error _ => s
  | .setEdgesOp es => set_edges s es
  | .deleteEdgeOp a b t => delete_edge s a b t
  | .applyPlan plan spec =>
    let plan' := sanitize_plan plan spec
    if plan'.files = [] then s
    else
      let payload := prepare_project_payload plan'.files spec
      if payload.1 = [] then s
      else
        { db := { metadata := payload.1, fs := payload.2, files_db := [] },
          edges := plan'.edges.filter (fun e => ¬ (e.from_ = "" ∨ e.to_ = "")) }

/-! ### Claim C4: intra-plan id reservation -/

/-- The candidate slug contributed by one raw entry of the file loop of
`sanitize_plan`, `none` when the entry is skipped.  This mirrors the skip
conditions of `sanitizeEntry` exactly. -/
def entrySlug (project_spec : ProjectSpec) (default_extension : String)
    (entry? : Option RawEntry) : Option String :=
  match entry? with
  | none => none
  | some entry =>
    let raw_file_name? := pyOr (pyOr (pyOr entry.file_name entry.path) entry.name) entry.label
    if ¬ pyTruthy raw_file_name? then none
    else
      let raw_file_name := raw_file_name?.getD ""
      let file_name := backslashToSlash (pyStrip raw_file_name)
      if file_name = "" then none
      else
        let file_name :=
          if extOf (baseName file_name) = "" then file_name ++ default_extension else file_name
        let normalized_path := backslashToSlash (pyNormPath file_name)
        if pyStartsWith normalized_path ".." then none
        else some (slugify (optStr (pyOr entry.id (some (rootOf (baseName normalized_path))))))

def slugsOf (raw_files : List (Option RawEntry)) (ps : ProjectSpec) : List String :=
  raw_files.filterMap (entrySlug ps (infer_default_extension ps))

/-- The `used_ids` id-reservation step of the sanitizer, isolated:
```python
if node_id in used_ids:
    used_ids[node_id] += 1
    node_id = f"{node_id}_{used_ids[node_id]}"
else:
    used_ids[node_id] = 1
```
-/
def reserveStep (used : List (String × Nat)) (c : String) : String × List (String × Nat) :=
  match getKey? used c with
  | some cnt => (c ++ "_" ++ pyStrNat (cnt + 1), setKey used c (cnt + 1))
  | none => (c, setKey used c 1)

def reserveIdsFrom (used : List (String × Nat)) : List String → List String
  | [] => []
  | c :: cs =>
    let r := reserveStep used c
    r.1 :: reserveIdsFrom r.2 cs

/-- The id assigned to the `m`-th occurrence of a candidate: the candidate
itself the first time, `candidate_m` afterwards. -/
def assignId (prev : List String) (c : String) : String :=
  if prev.count c = 0 then c else c ++ "_" ++ pyStrNat (prev.count c + 1)

def assignIds (prev : List String) : List String → List String
  | [] => []
  | c :: cs => assignId prev c :: assignIds (prev ++ [c]) cs

def usedInv (prev : List String) (used : List (String × Nat)) : Prop :=
  ∀ c : String, getKey? used c = if prev.count c = 0 then none else some (prev.count c)

/-! ### The record-level effect of the reconciliation loop -/

/-- What the reconciliation loop may do to one record: return it unchanged,
or — when the `fileName` key is absent — append a defaulted `fileName`. -/
def recRel (id : String) (a b : List (String × Val)) : Prop :=
  b = a ∨ (getKey? a "fileName" = none ∧ b = setKey a "fileName" (Val.s (recFileName id a)))

def entryRel (a b : String × (List (String × Val))) : Prop :=
  b.1 = a.1 ∧ recRel a.1 a.2 b.2

theorem toNat_ofNat_valid {n : Nat} (h : n.isValidChar) : (Char.ofNat n).toNat = n := by
  unfold Char.ofNat
  rw [dif_pos h]
  rfl

theorem toLower_eq (c : Char) :
    c.toLower = if c.toNat ≥ 65 ∧ c.toNat ≤ 90 then Char.ofNat (c.toNat + 32) else c := rfl

theorem toLower_toLower (c : Char) : c.toLower.toLower = c.toLower := by
  by_cases h : c.toNat ≥ 65 ∧ c.toNat ≤ 90
  · rw [toLower_eq c, if_pos h]
    have hv : (c.toNat + 32).isValidChar := Or.inl (by omega)
    have ht : (Char.ofNat (c.toNat + 32)).toNat = c.toNat + 32 := toNat_ofNat_valid hv
    rw [toLower_eq (Char.ofNat (c.toNat + 32)), if_neg (by omega)]
  · rw [toLower_eq c, if_neg h, toLower_eq c, if_neg h]

theorem splitCh_ne_nil (sep : Char) (l : List Char) : splitCh sep l ≠ [] := by
  induction l with
  | nil => simp [splitCh]
  | cons x xs ih =>
    simp only [splitCh]
    cases hs : splitCh sep xs with
    | nil => simp
    | cons h t =>
      by_cases hx : x = sep <;> simp [hx]

theorem splitCh_no_sep (sep : Char) (p : List Char) (hp : sep ∉ p) :
    splitCh sep p = [p] := by
  induction p with
  | nil => rfl
  | cons x xs ih =>
    have hx : x ≠ sep := fun h => hp (by simp [h])
    have hxs : sep ∉ xs := fun h => hp (by simp [h])
    simp only [splitCh, ih hxs]
    simp [hx]

theorem splitCh_append_sep (sep : Char) (p l : List Char) (hp : sep ∉ p) :
    splitCh sep (p ++ sep :: l) = p :: splitCh sep l := by
  induction p with
  | nil =>
    simp only [List.nil_append, splitCh]
    cases hs : splitCh sep l with
    | nil => exact absurd hs (splitCh_ne_nil sep l)
    | cons h t => simp
  | cons x xs ih =>
    have hx : x ≠ sep := fun h => hp (by simp [h])
    have hxs : sep ∉ xs := fun h => hp (by simp [h])
    have hstep : splitCh sep (x :: (xs ++ sep :: l)) =
        match splitCh sep (xs ++ sep :: l) with
        | [] => [[]]
        | h :: t => if x = sep then [] :: h :: t else (x :: h) :: t := rfl
    rw [List.cons_append, hstep, ih hxs]
    simp [hx]

theorem splitCh_joinCh (sep : Char) (parts : List (List Char)) (hne : parts ≠ [])
    (hfree : ∀ p ∈ parts, sep ∉ p) :
    splitCh sep (joinCh sep parts) = parts := by
  induction parts with
  | nil => exact absurd rfl hne
  | cons p ps ih =>
    cases ps with
    | nil =>
      simp only [joinCh]
      exact splitCh_no_sep sep p (hfree p (by simp))
    | cons q qs =>
      have h1 : sep ∉ p := hfree p (by simp)
      have h2 : ∀ r ∈ q :: qs, sep ∉ r := fun r hr => hfree r (by simp [hr])
      simp only [joinCh]
      rw [splitCh_append_sep sep p _ h1, ih (by simp) h2]

theorem mem_splitCh_sub (sep : Char) (l : List Char) :
    ∀ p ∈ splitCh sep l, ∀ c ∈ p, c ∈ l := by
  induction l with
  | nil =>
    intro p hp c hc
    simp [splitCh] at hp
    subst hp
    simp at hc
  | cons x xs ih =>
    intro p hp c hc
    simp only [splitCh] at hp
    cases hs : splitCh sep xs with
    | nil => exact absurd hs (splitCh_ne_nil sep xs)
    | cons h t =>
      rw [hs] at hp
      by_cases hx : x = sep
      · simp [hx] at hp
        rcases hp with hp | hp | hp
        · subst hp; simp at hc
        · exact List.mem_cons_of_mem x (ih p (by rw [hs]; simp [hp]) c hc)
        · exact List.mem_cons_of_mem x (ih p (by rw [hs]; simp [hp]) c hc)
      · simp [hx] at hp
        rcases hp with hp | hp
        · subst hp
          rcases List.mem_cons.mp hc with hc | hc
          · simp [hc]
          · exact List.mem_cons_of_mem x (ih h (by rw [hs]; simp) c hc)
        · exact List.mem_cons_of_mem x (ih p (by rw [hs]; simp [hp]) c hc)

theorem mem_splitCh_no_sep (sep : Char) (l : List Char) :
    ∀ p ∈ splitCh sep l, sep ∉ p := by
  induction l with
  | nil =>
    intro p hp
    simp [splitCh] at hp
    subst hp
    simp
  | cons x xs ih =>
    intro p hp
    simp only [splitCh] at hp
    cases hs : splitCh sep xs with
    | nil => exact absurd hs (splitCh_ne_nil sep xs)
    | cons h t =>
      rw [hs] at hp
      by_cases hx : x = sep
      · simp [hx] at hp
        rcases hp with hp | hp | hp
        · subst hp; simp
        · exact ih p (by rw [hs]; simp [hp])
        · exact ih p (by rw [hs]; simp [hp])
      · simp [hx] at hp
        rcases hp with hp | hp
        · subst hp
          intro hmem
          rcases List.mem_cons.mp hmem with hc | hc
          · exact hx hc.symm
          · exact ih h (by rw [hs]; simp) hc
        · exact ih p (by rw [hs]; simp [hp])

theorem joinCh_ne_nil (sep : Char) (parts : List (List Char)) (hne : parts ≠ [])
    (hp : ∀ p ∈ parts, p ≠ []) : joinCh sep parts ≠ [] := by
  cases parts with
  | nil => exact absurd rfl hne
  | cons p ps =>
    cases ps with
    | nil => exact hp p (by simp)
    | cons q qs =>
      simp only [joinCh]
      intro h
      exact hp p (by simp) (List.append_eq_nil.mp h).1

theorem mem_joinCh (sep : Char) (parts : List (List Char)) :
    ∀ c ∈ joinCh sep parts, c = sep ∨ ∃ p ∈ parts, c ∈ p := by
  induction parts with
  | nil => intro c hc; simp [joinCh] at hc
  | cons p ps ih =>
    intro c hc
    cases ps with
    | nil =>
      simp only [joinCh] at hc
      exact Or.inr ⟨p, by simp, hc⟩
    | cons q qs =>
      simp only [joinCh] at hc
      rcases List.mem_append.mp hc with hc | hc
      · exact Or.inr ⟨p, by simp, hc⟩
      · rcases List.mem_cons.mp hc with hc | hc
        · exact Or.inl hc
        · rcases ih c hc with h | ⟨r, hr, hcr⟩
          · exact Or.inl h
          · exact Or.inr ⟨r, by simp [hr], hcr⟩

theorem charStable_underscore : charStable '_' := by
  constructor
  · decide
  · decide

theorem charStable_slugChar_lower (a : Char) : charStable (slugChar (pyLower a)) := by
  by_cases h : (pyLower a).isAlphanum
  · have hc : slugChar (pyLower a) = pyLower a := by simp [slugChar, h]
    rw [hc]
    exact ⟨toLower_toLower a, hc⟩
  · have hc : slugChar (pyLower a) = '_' := by simp [slugChar, h]
    rw [hc]
    exact charStable_underscore

theorem slugifyL_chars_stable (v : List Char) : ∀ c ∈ slugifyL v, charStable c := by
  intro c hc
  simp only [slugifyL] at hc
  by_cases hz :
      joinCh '_' ((splitCh '_' ((v.map pyLower).map slugChar)).filter (fun p => p ≠ [])) = []
  · rw [if_pos hz] at hc
    simp only [List.mem_cons, List.not_mem_nil, or_false] at hc
    rcases hc with h | h | h | h <;> subst h <;> exact ⟨by decide, by decide⟩
  · rw [if_neg hz] at hc
    rcases mem_joinCh '_' _ c hc with h | ⟨p, hp, hcp⟩
    · subst h; exact charStable_underscore
    · have hmem : c ∈ (v.map pyLower).map slugChar :=
        mem_splitCh_sub '_' _ p (List.mem_of_mem_filter hp) c hcp
      rcases List.mem_map.mp hmem with ⟨b, hb, hbc⟩
      rcases List.mem_map.mp hb with ⟨a, _, hab⟩
      subst hbc; subst hab
      exact charStable_slugChar_lower a

theorem map_fixed (f : Char → Char) (u : List Char) (h : ∀ c ∈ u, f c = c) : u.map f = u := by
  induction u with
  | nil => rfl
  | cons x xs ih =>
    simp only [List.map_cons, h x (List.mem_cons_self x xs),
      ih (fun c hc => h c (List.mem_cons_of_mem x hc))]

theorem slugifyL_join (parts : List (List Char)) (hne : parts ≠ [])
    (hnonempty : ∀ p ∈ parts, p ≠ []) (hfree : ∀ p ∈ parts, '_' ∉ p)
    (hstable : ∀ c ∈ joinCh '_' parts, charStable c) :
    slugifyL (joinCh '_' parts) = joinCh '_' parts := by
  have h1 : (joinCh '_' parts).map pyLower = joinCh '_' parts :=
    map_fixed _ _ (fun c hc => (hstable c hc).1)
  have h2 : ((joinCh '_' parts).map pyLower).map slugChar = joinCh '_' parts := by
    rw [h1]
    exact map_fixed _ _ (fun c hc => (hstable c hc).2)
  have h3 : splitCh '_' (joinCh '_' parts) = parts := splitCh_joinCh '_' parts hne hfree
  have h4 : parts.filter (fun p => p ≠ []) = parts := by
    rw [List.filter_eq_self]
    intro p hp
    simpa using hnonempty p hp
  have h5 : joinCh '_' parts ≠ [] := joinCh_ne_nil '_' parts hne hnonempty
  simp only [slugifyL, h2, h3, h4]
  rw [if_neg h5]

theorem str_ext {a b : String} (h : a.data = b.data) : a = b := by
  cases a
  cases b
  exact congrArg String.mk h

theorem slugify_data (s : String) : (slugify s).data = slugifyL s.data := rfl

/-- C9: the slugification function is idempotent and never returns the empty
string. -/
theorem C9_slugify_idempotent_nonempty (s : String) :
    slugify (slugify s) = slugify s ∧ slugify s ≠ "" := by
  by_cases hz :
      joinCh '_' ((splitCh '_' ((s.data.map pyLower).map slugChar)).filter (fun p => p ≠ [])) = []
  · have hnode : slugify s = "node" := by
      apply str_ext
      rw [slugify_data]
      simp only [slugifyL]
      rw [if_pos hz]
    refine ⟨?_, ?_⟩
    · rw [hnode]
      decide
    · rw [hnode]
      decide
  · set cleaned := (s.data.map pyLower).map slugChar with hcleaned
    set parts := (splitCh '_' cleaned).filter (fun p => p ≠ []) with hparts
    have hval : slugifyL s.data = joinCh '_' parts := by
      simp only [slugifyL]
      rw [if_neg hz]
    have hne : parts ≠ [] := by
      intro h
      apply hz
      rw [h]
      rfl
    have hnonempty : ∀ p ∈ parts, p ≠ [] := by
      intro p hp
      have := List.of_mem_filter hp
      simpa using this
    have hfree : ∀ p ∈ parts, '_' ∉ p := by
      intro p hp
      exact mem_splitCh_no_sep '_' cleaned p (List.mem_of_mem_filter hp)
    have hstable : ∀ c ∈ joinCh '_' parts, charStable c := by
      intro c hc
      apply slugifyL_chars_stable s.data
      rw [hval]
      exact hc
    refine ⟨?_, ?_⟩
    · apply str_ext
      rw [slugify_data, slugify_data, hval]
      exact slugifyL_join parts hne hnonempty hfree hstable
    · intro h
      have : (slugify s).data = [] := by rw [h]
      rw [slugify_data, hval] at this
      exact joinCh_ne_nil '_' parts hne hnonempty this

theorem natDigitsF_congr : ∀ (f1 : Nat), ∀ (f2 n : Nat), n ≤ f1 → n ≤ f2 →
    natDigitsF f1 n = natDigitsF f2 n := by
  intro f1
  induction f1 using Nat.strong_induction_on with
  | _ f1 ih =>
    intro f2 n h1 h2
    match f1, f2 with
    | 0, 0 => rfl
    | 0, f2 + 1 =>
      have hn : n = 0 := Nat.le_zero.mp h1
      subst hn
      simp [natDigitsF]
    | f1 + 1, 0 =>
      have hn : n = 0 := Nat.le_zero.mp h2
      subst hn
      simp [natDigitsF]
    | f1 + 1, f2 + 1 =>
      simp only [natDigitsF]
      by_cases h : n < 10
      · rw [if_pos h, if_pos h]
      · rw [if_neg h, if_neg h]
        have hd1 : n / 10 ≤ f1 := by omega
        have hd2 : n / 10 ≤ f2 := by omega
        rw [ih f1 (by omega) f2 (n / 10) hd1 hd2]

theorem natDigits_eq (n : Nat) :
    natDigits n = if n < 10 then [digitChar n]
      else natDigits (n / 10) ++ [digitChar (n % 10)] := by
  by_cases h : n < 10
  · rw [if_pos h]
    rw [natDigits]
    match n, h with
    | 0, _ => rfl
    | m + 1, h => rw [natDigitsF, if_pos h]
  · rw [if_neg h]
    rw [natDigits, natDigits]
    have hn : ∃ m, n = m + 1 := ⟨n - 1, by omega⟩
    rcases hn with ⟨m, rfl⟩
    rw [natDigitsF, if_neg h]
    rw [natDigitsF_congr m ((m + 1) / 10) ((m + 1) / 10) (by omega) (by omega)]

theorem toNat_digitChar {d : Nat} (h : d < 10) : (digitChar d).toNat = 48 + d :=
  toNat_ofNat_valid (Or.inl (by omega))

theorem digitChar_ne_underscore {d : Nat} (h : d < 10) : digitChar d ≠ '_' := by
  intro heq
  have h1 := congrArg Char.toNat heq
  rw [toNat_digitChar h] at h1
  have h2 : ('_').toNat = 95 := by decide
  omega

theorem natDigits_chars (n : Nat) : ∀ c ∈ natDigits n, ∃ d, d < 10 ∧ c = digitChar d := by
  induction n using Nat.strong_induction_on with
  | _ n ih =>
    intro c hc
    rw [natDigits_eq] at hc
    by_cases h : n < 10
    · rw [if_pos h] at hc
      simp at hc
      exact ⟨n, h, hc⟩
    · rw [if_neg h] at hc
      rcases List.mem_append.mp hc with hc | hc
      · exact ih (n / 10) (Nat.div_lt_self (by omega) (by omega)) c hc
      · simp at hc
        exact ⟨n % 10, Nat.mod_lt n (by omega), hc⟩

theorem natDigits_ne_nil (n : Nat) : natDigits n ≠ [] := by
  rw [natDigits_eq]
  by_cases h : n < 10
  · rw [if_pos h]; simp
  · rw [if_neg h]; simp

theorem parse_natDigits (n : Nat) :
    ∀ a, List.foldl parseStep a (natDigits n) = a * 10 ^ (natDigits n).length + n := by
  induction n using Nat.strong_induction_on with
  | _ n ih =>
    intro a
    rw [natDigits_eq]
    by_cases h : n < 10
    · rw [if_pos h]
      simp only [List.foldl_cons, List.foldl_nil, List.length_cons, List.length_nil]
      rw [parseStep, toNat_digitChar h]
      ring_nf
      omega
    · rw [if_neg h]
      rw [List.foldl_append]
      rw [ih (n / 10) (Nat.div_lt_self (by omega) (by omega)) a]
      simp only [List.foldl_cons, List.foldl_nil, List.length_append, List.length_cons,
        List.length_nil]
      rw [parseStep, toNat_digitChar (Nat.mod_lt n (by omega))]
      have hpow : 10 ^ ((natDigits (n / 10)).length + (0 + 1)) =
          10 ^ (natDigits (n / 10)).length * 10 := by
        rw [Nat.zero_add, pow_succ]
      rw [hpow]
      have hdm : n / 10 * 10 + n % 10 = n := by omega
      ring_nf
      omega

theorem natDigits_inj {m n : Nat} (h : natDigits m = natDigits n) : m = n := by
  have hm := parse_natDigits m 0
  have hn := parse_natDigits n 0
  rw [h] at hm
  omega

theorem takeWhile_stop {p : Char → Bool} (l1 : List Char) (x : Char) (l2 : List Char)
    (h1 : ∀ c ∈ l1, p c) (hx : ¬ p x) :
    (l1 ++ x :: l2).takeWhile p = l1 ∧ (l1 ++ x :: l2).dropWhile p = x :: l2 := by
  induction l1 with
  | nil =>
    simp [List.takeWhile, List.dropWhile, hx]
  | cons c cs ih =>
    have hc : p c := h1 c (by simp)
    have hcs : ∀ d ∈ cs, p d := fun d hd => h1 d (by simp [hd])
    have := ih hcs
    simp [List.takeWhile, List.dropWhile, hc, this.1, this.2]

/-- Uniqueness of the `id ++ "_" ++ str(count)` decomposition: the decimal
suffix contains no underscore, so both components are recoverable. -/
theorem suffix_decomp (a b : List Char) (m n : Nat)
    (h : a ++ '_' :: natDigits m = b ++ '_' :: natDigits n) : a = b ∧ m = n := by
  have hrev := congrArg List.reverse h
  rw [List.reverse_append, List.reverse_cons, List.reverse_append, List.reverse_cons] at hrev
  simp only [List.append_assoc, List.singleton_append] at hrev
  have hdig : ∀ (k : Nat), ∀ c ∈ (natDigits k).reverse, (decide (c ≠ '_')) = true := by
    intro k c hc
    rcases natDigits_chars k c (List.mem_reverse.mp hc) with ⟨d, hd, rfl⟩
    simpa using digitChar_ne_underscore hd
  have hu : ¬ (decide (('_' : Char) ≠ '_')) = true := by simp
  have hm' := takeWhile_stop (p := fun c => decide (c ≠ '_'))
    (natDigits m).reverse '_' a.reverse (hdig m) hu
  have hn' := takeWhile_stop (p := fun c => decide (c ≠ '_'))
    (natDigits n).reverse '_' b.reverse (hdig n) hu
  have htake := congrArg (List.takeWhile (fun c => decide (c ≠ '_'))) hrev
  have hdrop := congrArg (List.dropWhile (fun c => decide (c ≠ '_'))) hrev
  rw [hm'.1, hn'.1] at htake
  rw [hm'.2, hn'.2] at hdrop
  constructor
  · have : a.reverse = b.reverse := by simpa using hdrop
    simpa using congrArg List.reverse this
  · exact natDigits_inj (by simpa using congrArg List.reverse htake)

/-! ### Claim C5: the fallback guarantee -/

theorem launcher_step_ne_nil {α : Type} (p : α → Bool) (nf : List α) (l : α) :
    (if nf.any p then nf else nf ++ [l]) ≠ [] := by
  by_cases h : nf.any p = true
  · rw [if_pos h]
    intro hc
    rw [hc] at h
    simp at h
  · rw [if_neg h]
    simp

theorem fallback_files_ne_nil (ps : ProjectSpec) :
    (fallback_metadata_plan ps).files ≠ [] := by
  obtain ⟨nf, l, hnf⟩ : ∃ (nf : List CFile) (l : CFile),
      (fallback_metadata_plan ps).files =
        (if nf.any (fun entry => entry.file_name = "scripts/run_app.sh") then nf
         else nf ++ [l]) := ⟨_, _, rfl⟩
  rw [hnf]
  exact launcher_step_ne_nil _ nf l

/-- C5: sanitizing a raw plan whose files entry is missing, empty, or leaves
no surviving entries returns the deterministic fallback plan, and the
fallback plan always contains at least one file. -/
theorem C5_fallback_guarantee (plan_data : RawPlan) (project_spec : ProjectSpec)
    (h : plan_data.files = none ∨ plan_data.files = some [] ∨
      (∃ raw_files, plan_data.files = some raw_files ∧
        (sanitizeFilesPass raw_files project_spec).sanitized_files = [])) :
    sanitize_plan plan_data project_spec = fallback_metadata_plan project_spec ∧
    (fallback_metadata_plan project_spec).files ≠ [] := by
  refine ⟨?_, fallback_files_ne_nil project_spec⟩
  obtain ⟨pf, pe⟩ := plan_data
  rcases h with h | h | ⟨raw_files, hf, hempty⟩
  · simp only at h
    subst h
    rfl
  · simp only at h
    subst h
    rfl
  · simp only at hf
    subst hf
    by_cases hrf : raw_files = []
    · subst hrf
      rfl
    · show (if raw_files = [] then fallback_metadata_plan project_spec
        else
          let st := sanitizeFilesPass raw_files project_spec
          if st.sanitized_files = [] then fallback_metadata_plan project_spec
          else
            let label_map := st.sanitized_files.foldl (fun m file => setKey m file.id file.label) []
            let sanitized_edges :=
              match (RawPlan.mk (some raw_files) pe).edges with
              | some raw_edges => sanitizeEdgesPass raw_edges st.id_map label_map
              | none => []
            let sanitized_edges :=
              if sanitized_edges = [] then generate_default_edges st.sanitized_files
              else sanitized_edges
            { files := st.sanitized_files, edges := sanitized_edges }) =
        fallback_metadata_plan project_spec
      rw [if_neg hrf]
      simp only [hempty, if_pos]

theorem C5_fallback_guarantee_witness :
    sanitize_plan ⟨some [], none⟩ ⟨some "My App", some "demo", [], [], none⟩ =
      fallback_metadata_plan ⟨some "My App", some "demo", [], [], none⟩ ∧
    (fallback_metadata_plan (⟨some "My App", some "demo", [], [], none⟩ : ProjectSpec)).files ≠ [] :=
  C5_fallback_guarantee _ _ (Or.inr (Or.inl rfl))

/-! ### Claim C6: the default edge generator builds a full mesh -/

theorem countP_flatMap {α β : Type} (l : List α) (f : α → List β) (p : β → Bool) :
    (l.flatMap f).countP p = (l.map (fun a => (f a).countP p)).sum := by
  induction l with
  | nil => rfl
  | cons x xs ih => simp [List.flatMap_cons, List.countP_append, ih]

theorem length_flatMap' {α β : Type} (l : List α) (f : α → List β) :
    (l.flatMap f).length = (l.map (fun a => (f a).length)).sum := by
  induction l with
  | nil => rfl
  | cons x xs ih => simp [List.flatMap_cons, ih]

theorem sum_indicator_eq_countP {α : Type} (l : List α) (p : α → Prop) [DecidablePred p] :
    (l.map (fun a => if p a then 1 else 0)).sum = l.countP (fun a => decide (p a)) := by
  induction l with
  | nil => rfl
  | cons x xs ih =>
    by_cases h : p x
    · simp [h, ih, List.countP_cons]
      omega
    · simp [h, ih, List.countP_cons]

theorem countP_map_eq {α β : Type} (f : α → β) (p : β → Bool) (q : α → Bool) (l : List α)
    (h : ∀ a ∈ l, (p (f a) = true) ↔ (q a = true)) : (l.map f).countP p = l.countP q := by
  rw [List.countP_map]
  exact List.countP_congr h

/-- With pairwise-distinct ids, exactly one element of the list has a given
member's id. -/
theorem countP_id_eq_one (node_files : List CFile) (s : CFile)
    (hnodup : (node_files.map CFile.id).Nodup) (hs : s ∈ node_files) :
    node_files.countP (fun t => t.id = s.id) = 1 := by
  have h1 : node_files.countP (fun t => t.id = s.id) =
      (node_files.map CFile.id).countP (fun i => i = s.id) := by
    rw [List.countP_map]
    rfl
  rw [h1]
  have hmem : s.id ∈ node_files.map CFile.id := List.mem_map_of_mem CFile.id hs
  have := List.count_eq_one_of_mem hnodup hmem
  rw [← this]
  rw [List.count]
  rfl

/-- C6: with `n` pairwise-distinct ids, the default edge generator emits no
edges for `n < 2` and, for `n ≥ 2`, exactly one `depends_on` edge for every
ordered pair of distinct files — `n * (n - 1)` edges, a full mesh. -/
theorem C6_default_edges_full_mesh (node_files : List CFile)
    (hnodup : (node_files.map CFile.id).Nodup) :
    (node_files.length < 2 → generate_default_edges node_files = []) ∧
    (2 ≤ node_files.length →
      (generate_default_edges node_files).length =
        node_files.length * (node_files.length - 1) ∧
      (∀ e ∈ generate_default_edges node_files, e.type = "depends_on") ∧
      (∀ s ∈ node_files, ∀ t ∈ node_files, s.id ≠ t.id →
        (generate_default_edges node_files).countP
          (fun e => e.from_ = s.id ∧ e.to_ = t.id) = 1)) := by
  constructor
  · intro hlt
    rw [generate_default_edges, if_pos hlt]
  · intro hge
    have hnlt : ¬ node_files.length < 2 := by omega
    have hfilter : ∀ s ∈ node_files,
        (node_files.filter (fun target => target.id ≠ s.id)).length =
          node_files.length - 1 := by
      intro s hs
      have hsplit := List.length_eq_countP_add_countP (l := node_files)
        (p := fun t => t.id = s.id)
      have hone := countP_id_eq_one node_files s hnodup hs
      have hneg : (node_files.filter (fun target => target.id ≠ s.id)).length =
          node_files.countP (fun a => ¬ decide (a.id = s.id) = true) := by
        rw [← List.countP_eq_length_filter]
        apply List.countP_congr
        intro a _
        by_cases h : a.id = s.id <;> simp [h]
      omega
    refine ⟨?_, ?_, ?_⟩
    · rw [generate_default_edges, if_neg hnlt, length_flatMap']
      have hmap : node_files.map (fun s =>
          ((node_files.filter (fun target => target.id ≠ s.id)).map (fun target =>
            ({ from_ := s.id, to_ := target.id, type := "depends_on",
               description := target.label ++ " consumes outputs from " ++ s.label ++
                 " to stay in sync." } : CEdge))).length) =
          node_files.map (fun _ => node_files.length - 1) := by
        apply List.map_congr_left
        intro s hs
        rw [List.length_map]
        exact hfilter s hs
      rw [hmap]
      rw [List.map_const', List.sum_replicate, smul_eq_mul]
    · intro e he
      rw [generate_default_edges, if_neg hnlt] at he
      rcases List.mem_flatMap.mp he with ⟨s, _, hmem⟩
      rcases List.mem_map.mp hmem with ⟨t, _, rfl⟩
      rfl
    · intro s hs t ht hne
      rw [generate_default_edges, if_neg hnlt, countP_flatMap]
      have hmap : node_files.map (fun x =>
          ((node_files.filter (fun target => target.id ≠ x.id)).map (fun target =>
            ({ from_ := x.id, to_ := target.id, type := "depends_on",
               description := target.label ++ " consumes outputs from " ++ x.label ++
                 " to stay in sync." } : CEdge))).countP
            (fun e => e.from_ = s.id ∧ e.to_ = t.id)) =
          node_files.map (fun x => if x.id = s.id then 1 else 0) := by
        apply List.map_congr_left
        intro x hx
        by_cases hxs : x.id = s.id
        · rw [if_pos hxs]
          rw [countP_map_eq _ _ (fun a => decide (a.id = t.id)) _
            (by intro a _; simp [hxs])]
          rw [List.countP_filter]
          rw [List.countP_congr (q := fun a => decide (a.id = t.id)) (by
            intro a _
            constructor
            · intro hab
              simp only [Bool.and_eq_true, decide_eq_true_eq] at hab
              simp [hab.1]
            · intro hab
              simp only [decide_eq_true_eq] at hab
              have hax : a.id ≠ x.id := by
                rw [hab, hxs]
                intro hts
                exact hne hts.symm
              rw [hab] at hax
              simp [hab, hax])]
          exact countP_id_eq_one node_files t hnodup ht
        · rw [if_neg hxs]
          rw [countP_map_eq _ _ (fun _ => false) _ (by intro a _; simp [hxs])]
          simp
      rw [hmap, sum_indicator_eq_countP]
      exact countP_id_eq_one node_files s hnodup hs

/-! ### Claim C3: path safety -/

theorem dotdot_false_head (s : String) (h : s.data.head? ≠ some ('.' : Char)) :
    pyStartsWith s ".." = false := by
  have hdd : (".." : String).data = ['.', '.'] := rfl
  rw [pyStartsWith, hdd]
  cases hd : s.data with
  | nil => rfl
  | cons c rest =>
    rw [hd] at h
    simp only [List.head?_cons, ne_eq, Option.some.injEq] at h
    show (('.' == c) && List.isPrefixOf ['.'] rest) = false
    rw [beq_false_of_ne (fun heq => h heq.symm)]
    rfl

theorem dotdot_false_lit_append (a : String) (c : Char) (l : List Char)
    (ha : a.data = c :: l) (hc : c ≠ '.') (x : String) :
    pyStartsWith (a ++ x) ".." = false := by
  apply dotdot_false_head
  rw [String.data_append, ha]
  simp [hc]

/-- Every file emitted by the sanitizer file pass has a normalized name that
does not start with `..` (the only path check the code performs). -/
theorem sanitizeEntry_step (ps : ProjectSpec) (ext : String) (st : SanState)
    (e? : Option RawEntry) :
    (sanitizeEntry ps ext st e?).sanitized_files = st.sanitized_files ∨
    ∃ cf : CFile, (sanitizeEntry ps ext st e?).sanitized_files = st.sanitized_files ++ [cf] ∧
      pyStartsWith cf.file_name ".." = false := by
  cases e? with
  | none => exact Or.inl rfl
  | some entry =>
    rw [sanitizeEntry]
    by_cases h1 : ¬ pyTruthy (pyOr (pyOr (pyOr entry.file_name entry.path) entry.name) entry.label)
    · rw [if_pos h1]
      exact Or.inl rfl
    · rw [if_neg h1]
      by_cases h2 : backslashToSlash (pyStrip
          ((pyOr (pyOr (pyOr entry.file_name entry.path) entry.name) entry.label).getD "")) = ""
      · rw [if_pos h2]
        exact Or.inl rfl
      · rw [if_neg h2]
        dsimp only
        by_cases h3 : pyStartsWith (backslashToSlash (pyNormPath
            (if extOf (baseName (backslashToSlash (pyStrip
                ((pyOr (pyOr (pyOr entry.file_name entry.path) entry.name)
                  entry.label).getD "")))) = ""
             then backslashToSlash (pyStrip
                ((pyOr (pyOr (pyOr entry.file_name entry.path) entry.name)
                  entry.label).getD "")) ++ ext
             else backslashToSlash (pyStrip
                ((pyOr (pyOr (pyOr entry.file_name entry.path) entry.name)
                  entry.label).getD ""))))) ".." = true
        · rw [if_pos h3]
          exact Or.inl rfl
        · rw [if_neg h3]
          dsimp only
          refine Or.inr ⟨_, rfl, ?_⟩
          exact (Bool.not_eq_true _) ▸ h3

theorem sanitizeFilesPass_safe_aux (ps : ProjectSpec) (ext : String) :
    ∀ (l : List (Option RawEntry)) (st : SanState),
      (∀ f ∈ st.sanitized_files, pyStartsWith f.file_name ".." = false) →
      ∀ f ∈ (l.foldl (sanitizeEntry ps ext) st).sanitized_files,
        pyStartsWith f.file_name ".." = false := by
  intro l
  induction l with
  | nil => intro st hst f hf; exact hst f hf
  | cons e? l ih =>
    intro st hst f hf
    rw [List.foldl_cons] at hf
    apply ih (sanitizeEntry ps ext st e?) ?_ f hf
    rcases sanitizeEntry_step ps ext st e? with h | ⟨cf, heq, hcf⟩
    · rw [h]; exact hst
    · rw [heq]
      intro g hg
      rcases List.mem_append.mp hg with hg | hg
      · exact hst g hg
      · rw [List.mem_singleton.mp hg]
        exact hcf

theorem mem_ite_or {α : Type} {f : α} {c : Prop} [Decidable c] {l1 l2 : List α}
    (h : f ∈ (if c then l1 else l2)) : f ∈ l1 ∨ f ∈ l2 := by
  by_cases hc : c
  · rw [if_pos hc] at h
    exact Or.inl h
  · rw [if_neg hc] at h
    exact Or.inr h

theorem mem_launcher_step {α : Type} {f l : α} {nf : List α} {c : Prop} [Decidable c]
    (h : f ∈ (if c then nf else nf ++ [l])) : f ∈ nf ∨ f = l := by
  rcases mem_ite_or h with h | h
  · exact Or.inl h
  · rcases List.mem_append.mp h with h | h
    · exact Or.inl h
    · exact Or.inr (List.mem_singleton.mp h)

theorem fallback_files_safe (ps : ProjectSpec) :
    ∀ f ∈ (fallback_metadata_plan ps).files, pyStartsWith f.file_name ".." = false := by
  intro f hf
  rw [fallback_metadata_plan] at hf
  dsimp only at hf
  rcases mem_launcher_step hf with hf | hf
  case inr =>
    rw [hf]
    show pyStartsWith "scripts/run_app.sh" ".." = false
    decide
  -- hf : f ∈ (if nf₀ = [] then [entrypoint] else nf₀)
  rcases mem_ite_or hf with hf | hf
  case inl =>
    rw [List.mem_singleton.mp hf]
    rw [String.append_assoc]
    exact dotdot_false_lit_append _ 'b' _ rfl (by decide) _
  -- hf : f ∈ frontend-part ++ features-part
  rcases List.mem_append.mp hf with hf | hf
  case inl =>
    rcases mem_ite_or hf with hf | hf
    case inr => simp at hf
    simp only [List.mem_cons, List.not_mem_nil, or_false] at hf
    rcases hf with rfl | rfl | rfl
    · rw [String.append_assoc, String.append_assoc]
      exact dotdot_false_lit_append _ 'f' _ rfl (by decide) _
    · rw [String.append_assoc, String.append_assoc]
      exact dotdot_false_lit_append _ 'f' _ rfl (by decide) _
    · rw [String.append_assoc]
      exact dotdot_false_lit_append _ 'f' _ rfl (by decide) _
  -- hf : f ∈ (if features ≠ [] then ... else [])
  rcases mem_ite_or hf with hf | hf
  case inr => simp at hf
  rcases List.mem_append.mp hf with hf | hf
  case inl =>
    rcases List.mem_flatMap.mp hf with ⟨pair, _, hmem⟩
    rcases mem_ite_or hmem with hmem | hmem
    case inr => simp at hmem
    simp only [List.mem_cons, List.not_mem_nil, or_false] at hmem
    rcases hmem with rfl | rfl
    · rw [String.append_assoc, String.append_assoc]
      exact dotdot_false_lit_append _ 'b' _ rfl (by decide) _
    · rw [String.append_assoc, String.append_assoc]
      exact dotdot_false_lit_append _ 'b' _ rfl (by decide) _
  -- hf : f ∈ (if backend then [storage, schema] else [])
  rcases mem_ite_or hf with hf | hf
  case inr => simp at hf
  simp only [List.mem_cons, List.not_mem_nil, or_false] at hf
  rcases hf with rfl | rfl
  · rw [String.append_assoc, String.append_assoc]
    exact dotdot_false_lit_append _ 'b' _ rfl (by decide) _
  · rw [String.append_assoc, String.append_assoc]
    exact dotdot_false_lit_append _ 'b' _ rfl (by decide) _

/-- C3 counterexample: the code only drops an entry when the *normalized*
path starts with `..`.  A raw path that merely contains a `../` sequence but
normalizes inside the workspace survives, and so does an absolute path —
both contradicting the claim as stated. -/
theorem C3_counterexample :
    pyIn "../" "x/../ok.py" = true ∧
    (sanitize_plan
      ⟨some [some ⟨none, some "x/../ok.py", none, none, none, none⟩], none⟩
      ⟨none, none, [], [], none⟩).files.map CFile.file_name = ["ok.py"] ∧
    (sanitize_plan
      ⟨some [some ⟨none, some "/etc/passwd.py", none, none, none, none⟩], none⟩
      ⟨none, none, [], [], none⟩).files.map CFile.file_name = ["/etc/passwd.py"] := by
  refine ⟨by decide, by decide, by decide⟩

/-- C3 (amended): every file of the canonical plan has a file name that does
not start with `..` — the sanitizer drops exactly the entries whose
*normalized* path starts with `..` (absolute paths and `../` substrings that
normalize away are not rejected). -/
theorem C3_amended_path_safety (plan_data : RawPlan) (project_spec : ProjectSpec) :
    ∀ f ∈ (sanitize_plan plan_data project_spec).files,
      pyStartsWith f.file_name ".." = false := by
  intro f hf
  obtain ⟨pf, pe⟩ := plan_data
  cases pf with
  | none => exact fallback_files_safe project_spec f hf
  | some raw_files =>
    by_cases hrf : raw_files = []
    · subst hrf
      exact fallback_files_safe project_spec f hf
    · by_cases hempty : (sanitizeFilesPass raw_files project_spec).sanitized_files = []
      · have heq : sanitize_plan ⟨some raw_files, pe⟩ project_spec =
            fallback_metadata_plan project_spec :=
          (C5_fallback_guarantee ⟨some raw_files, pe⟩ project_spec
            (Or.inr (Or.inr ⟨raw_files, rfl, hempty⟩))).1
        rw [heq] at hf
        exact fallback_files_safe project_spec f hf
      · have hfiles : (sanitize_plan ⟨some raw_files, pe⟩ project_spec).files =
            (sanitizeFilesPass raw_files project_spec).sanitized_files := by
          show (if raw_files = [] then fallback_metadata_plan project_spec
            else
              let st := sanitizeFilesPass raw_files project_spec
              if st.sanitized_files = [] then fallback_metadata_plan project_spec
              else
                let label_map := st.sanitized_files.foldl
                  (fun m file => setKey m file.id file.label) []
                let sanitized_edges :=
                  match (RawPlan.mk (some raw_files) pe).edges with
                  | some raw_edges => sanitizeEdgesPass raw_edges st.id_map label_map
                  | none => []
                let sanitized_edges :=
                  if sanitized_edges = [] then generate_default_edges st.sanitized_files
                  else sanitized_edges
                { files := st.sanitized_files, edges := sanitized_edges }).files =
            (sanitizeFilesPass raw_files project_spec).sanitized_files
          rw [if_neg hrf]
          dsimp only
          rw [if_neg hempty]
        rw [hfiles] at hf
        exact sanitizeFilesPass_safe_aux project_spec
          (infer_default_extension project_spec) raw_files ⟨[], [], []⟩ (by simp) f hf

theorem C3_amended_path_safety_witness :
    (⟨"ok", "ok.py", "ok.py", ""⟩ : CFile) ∈
      (sanitize_plan ⟨some [some ⟨none, some "x/../ok.py", none, none, none, none⟩], none⟩
        ⟨none, none, [], [], none⟩).files ∧
    pyStartsWith (CFile.file_name ⟨"ok", "ok.py", "ok.py", ""⟩) ".." = false :=
  ⟨by decide, C3_amended_path_safety
    ⟨some [some ⟨none, some "x/../ok.py", none, none, none, none⟩], none⟩
    ⟨none, none, [], [], none⟩ _ (by decide)⟩

theorem getKey?_cons {α : Type} (x : String × α) (m : List (String × α)) (k : String) :
    getKey? (x :: m) k = if x.1 = k then some x.2 else getKey? m k := by
  rw [getKey?, List.find?]
  by_cases h : x.1 = k
  · simp [h, getKey?]
  · simp [h, getKey?]

theorem getKey?_mapset {α : Type} (m : List (String × α)) (k k' : String) (v : α) :
    getKey? (m.map (fun p => if p.1 = k then (k, v) else p)) k' =
      if k' = k then (getKey? m k).map (fun _ => v) else getKey? m k' := by
  induction m with
  | nil =>
    simp only [List.map_nil]
    by_cases hk : k' = k <;> simp [hk, getKey?]
  | cons x m ih =>
    rw [List.map_cons]
    by_cases hx : x.1 = k
    · rw [if_pos hx]
      simp only [getKey?_cons, hx, ih]
      by_cases hk : k' = k
      · subst hk
        simp
      · have hk' : ¬ k = k' := fun h => hk h.symm
        simp [hk, hk']
    · rw [if_neg hx]
      simp only [getKey?_cons, ih]
      by_cases hx2 : x.1 = k'
      · have hk : ¬ k' = k := fun h => hx (hx2.trans h)
        simp [hx2, hk]
      · by_cases hk : k' = k
        · subst hk
          simp [hx2, hx]
        · simp [hx2, hk]

theorem getKey?_setKey {α : Type} (m : List (String × α)) (k k' : String) (v : α) :
    getKey? (setKey m k v) k' = if k' = k then some v else getKey? m k' := by
  rw [setKey]
  by_cases hany : m.any (fun p => p.1 = k) = true
  · rw [if_pos hany, getKey?_mapset]
    by_cases hk : k' = k
    · rw [if_pos hk, if_pos hk]
      have hsome : ∃ y, getKey? m k = some y := by
        rcases List.any_eq_true.mp hany with ⟨p, hp, hpk⟩
        rw [getKey?]
        have : (m.find? (fun p => p.1 = k)).isSome = true := by
          rw [List.find?_isSome]
          exact ⟨p, hp, hpk⟩
        rcases Option.isSome_iff_exists.mp this with ⟨y, hy⟩
        exact ⟨y.2, by rw [hy]; rfl⟩
      rcases hsome with ⟨y, hy⟩
      rw [hy]
      rfl
    · rw [if_neg hk, if_neg hk]
  · rw [if_neg hany]
    have hnone : getKey? m k = none := by
      rw [getKey?, List.find?_eq_none.mpr]
      · rfl
      · intro x hx
        simp only [decide_eq_true_eq]
        intro hxk
        exact hany (List.any_eq_true.mpr ⟨x, hx, by simp [hxk]⟩)
    induction m with
    | nil =>
      rw [List.nil_append, getKey?_cons]
      by_cases hk : k' = k
      · rw [if_pos hk, if_pos (by rw [hk])]
      · rw [if_neg hk, if_neg (fun h => hk h.symm)]
    | cons x m ih =>
      rw [List.cons_append, getKey?_cons, getKey?_cons]
      by_cases hx : x.1 = k'
      · rw [if_pos hx, if_pos hx]
        by_cases hk : k' = k
        · exfalso
          rw [getKey?_cons] at hnone
          rw [hk] at hx
          rw [if_pos hx] at hnone
          exact Option.noConfusion hnone
        · rw [if_neg hk]
      · rw [if_neg hx, if_neg hx]
        apply ih
        · intro hany2
          apply hany
          rcases List.any_eq_true.mp hany2 with ⟨p, hp, hpk⟩
          exact List.any_eq_true.mpr ⟨p, List.mem_cons_of_mem x hp, hpk⟩
        · rw [getKey?_cons] at hnone
          by_cases hxk : x.1 = k
          · rw [if_pos hxk] at hnone
            exact Option.noConfusion hnone
          · rw [if_neg hxk] at hnone
            exact hnone

/-- The characterization of one sanitizer step in terms of the candidate
slug. -/
theorem sanitizeEntry_char (ps : ProjectSpec) (ext : String) (st : SanState)
    (e? : Option RawEntry) :
    (entrySlug ps ext e? = none ∧ sanitizeEntry ps ext st e? = st) ∨
    (∃ c, entrySlug ps ext e? = some c ∧
      (sanitizeEntry ps ext st e?).sanitized_files.map CFile.id =
        st.sanitized_files.map CFile.id ++ [(reserveStep st.used_ids c).1] ∧
      (sanitizeEntry ps ext st e?).used_ids = (reserveStep st.used_ids c).2) := by
  cases e? with
  | none => exact Or.inl ⟨rfl, rfl⟩
  | some entry =>
    rw [sanitizeEntry, entrySlug]
    by_cases h1 : ¬ pyTruthy (pyOr (pyOr (pyOr entry.file_name entry.path) entry.name) entry.label)
    · rw [if_pos h1, if_pos h1]
      exact Or.inl ⟨rfl, rfl⟩
    · rw [if_neg h1, if_neg h1]
      by_cases h2 : backslashToSlash (pyStrip
          ((pyOr (pyOr (pyOr entry.file_name entry.path) entry.name) entry.label).getD "")) = ""
      · rw [if_pos h2, if_pos h2]
        exact Or.inl ⟨rfl, rfl⟩
      · rw [if_neg h2, if_neg h2]
        dsimp only
        by_cases h3 : pyStartsWith (backslashToSlash (pyNormPath
            (if extOf (baseName (backslashToSlash (pyStrip
                ((pyOr (pyOr (pyOr entry.file_name entry.path) entry.name)
                  entry.label).getD "")))) = ""
             then backslashToSlash (pyStrip
                ((pyOr (pyOr (pyOr entry.file_name entry.path) entry.name)
                  entry.label).getD "")) ++ ext
             else backslashToSlash (pyStrip
                ((pyOr (pyOr (pyOr entry.file_name entry.path) entry.name)
                  entry.label).getD ""))))) ".." = true
        · rw [if_pos h3, if_pos h3]
          exact Or.inl ⟨rfl, rfl⟩
        · rw [if_neg h3, if_neg h3]
          dsimp only
          refine Or.inr ⟨_, rfl, ?_, rfl⟩
          rw [List.map_append]
          rfl

theorem pass_ids_bridge (ps : ProjectSpec) (ext : String) :
    ∀ (l : List (Option RawEntry)) (st : SanState),
      ((l.foldl (sanitizeEntry ps ext) st).sanitized_files).map CFile.id =
        st.sanitized_files.map CFile.id ++
          reserveIdsFrom st.used_ids (l.filterMap (entrySlug ps ext)) := by
  intro l
  induction l with
  | nil => intro st; simp [reserveIdsFrom]
  | cons e? l ih =>
    intro st
    rw [List.foldl_cons, List.filterMap_cons]
    rcases sanitizeEntry_char ps ext st e? with ⟨hnone, hst⟩ | ⟨c, hsome, hids, hused⟩
    · rw [hnone, hst]
      exact ih st
    · rw [hsome]
      dsimp only
      rw [ih (sanitizeEntry ps ext st e?), hids, hused, reserveIdsFrom]
      rw [List.append_assoc, List.singleton_append]

theorem reserve_assign (cs : List String) :
    ∀ (prev : List String) (used : List (String × Nat)), usedInv prev used →
      reserveIdsFrom used cs = assignIds prev cs := by
  induction cs with
  | nil => intro prev used _; rfl
  | cons c cs ih =>
    intro prev used hinv
    rw [reserveIdsFrom, assignIds]
    have hc := hinv c
    by_cases hz : prev.count c = 0
    · rw [if_pos hz] at hc
      simp only [reserveStep, hc]
      rw [assignId, if_pos hz]
      congr 1
      apply ih (prev ++ [c])
      intro d
      rw [getKey?_setKey]
      by_cases hdc : d = c
      · subst hdc
        rw [if_pos rfl, List.count_append, List.count_singleton_self]
        rw [if_neg (by omega)]
        rw [hz]
      · rw [if_neg hdc, hinv d, List.count_append]
        have : List.count d [c] = 0 := by
          rw [List.count_singleton]
          simp [Ne.symm hdc]
        rw [this, Nat.add_zero]
    · rw [if_neg hz] at hc
      simp only [reserveStep, hc]
      rw [assignId, if_neg hz]
      congr 1
      apply ih (prev ++ [c])
      intro d
      rw [getKey?_setKey]
      by_cases hdc : d = c
      · subst hdc
        rw [if_pos rfl, List.count_append, List.count_singleton_self]
        rw [if_neg (by omega)]
      · rw [if_neg hdc, hinv d, List.count_append]
        have : List.count d [c] = 0 := by
          rw [List.count_singleton]
          simp [Ne.symm hdc]
        rw [this, Nat.add_zero]

theorem mem_assignIds : ∀ (cs prev : List String) (a : String), a ∈ assignIds prev cs →
    ∃ t d rest, cs = t ++ d :: rest ∧ a = assignId (prev ++ t) d := by
  intro cs
  induction cs with
  | nil => intro prev a ha; simp [assignIds] at ha
  | cons c cs ih =>
    intro prev a ha
    rw [assignIds] at ha
    rcases List.mem_cons.mp ha with ha | ha
    · exact ⟨[], c, cs, by simp, by simpa using ha⟩
    · rcases ih (prev ++ [c]) a ha with ⟨t, d, rest, hcs, hd⟩
      refine ⟨c :: t, d, rest, by simp [hcs], ?_⟩
      rw [hd]
      congr 1
      simp

theorem string_suffix_decomp (a b : String) (m n : Nat)
    (h : a ++ "_" ++ pyStrNat m = b ++ "_" ++ pyStrNat n) : a = b ∧ m = n := by
  have hd := congrArg String.data h
  rw [String.data_append, String.data_append, String.data_append, String.data_append] at hd
  have h1 : a.data ++ '_' :: natDigits m = b.data ++ '_' :: natDigits n := by
    simpa using hd
  rcases suffix_decomp a.data b.data m n h1 with ⟨hab, hmn⟩
  exact ⟨str_ext hab, hmn⟩

theorem assignId_ne (orig prev t : List String) (c d : String)
    (hc : c ∈ orig) (hd : d ∈ orig)
    (hp : prev.length + 1 ≤ orig.length)
    (hq : prev.length + 1 + t.length + 1 ≤ orig.length)
    (H : ∀ x ∈ orig, ∀ y ∈ orig, ∀ k, k < orig.length + 1 → 2 ≤ k →
      x ≠ y ++ "_" ++ pyStrNat k) :
    assignId prev c ≠ assignId (prev ++ [c] ++ t) d := by
  intro heq
  rw [assignId, assignId] at heq
  by_cases h1 : prev.count c = 0 <;> by_cases h2 : (prev ++ [c] ++ t).count d = 0
  · rw [if_pos h1, if_pos h2] at heq
    subst heq
    rw [List.count_append, List.count_append, List.count_singleton_self] at h2
    omega
  · rw [if_pos h1, if_neg h2] at heq
    have hcount := List.count_le_length d (prev ++ [c] ++ t)
    rw [List.length_append, List.length_append, List.length_singleton] at hcount
    exact H c hc d hd _ (by omega) (by omega) heq
  · rw [if_neg h1, if_pos h2] at heq
    have hcount := List.count_le_length c prev
    exact H d hd c hc _ (by omega) (by omega) heq.symm
  · rw [if_neg h1, if_neg h2] at heq
    rcases string_suffix_decomp _ _ _ _ heq with ⟨hcd, hmn⟩
    subst hcd
    rw [List.count_append, List.count_append, List.count_singleton_self] at hmn
    omega

theorem assignIds_nodup_gen (orig : List String)
    (H : ∀ x ∈ orig, ∀ y ∈ orig, ∀ k, k < orig.length + 1 → 2 ≤ k →
      x ≠ y ++ "_" ++ pyStrNat k) :
    ∀ (cs prev : List String), (∀ c ∈ cs, c ∈ orig) →
      prev.length + cs.length ≤ orig.length →
      (assignIds prev cs).Nodup := by
  intro cs
  induction cs with
  | nil => intro prev _ _; exact List.nodup_nil
  | cons c cs ih =>
    intro prev hmem hlen
    rw [assignIds, List.nodup_cons]
    constructor
    · intro hin
      rcases mem_assignIds cs (prev ++ [c]) _ hin with ⟨t, d, rest, hcs, hd⟩
      have hdo : d ∈ orig := hmem d (by rw [hcs]; simp)
      have hco : c ∈ orig := hmem c (by simp)
      have hlen1 : prev.length + 1 ≤ orig.length := by
        simp only [List.length_cons] at hlen
        omega
      have hlen2 : prev.length + 1 + t.length + 1 ≤ orig.length := by
        rw [hcs] at hlen
        simp only [List.length_cons, List.length_append] at hlen
        omega
      refine assignId_ne orig prev t c d hco hdo hlen1 hlen2 H ?_
      rw [hd]
    · apply ih (prev ++ [c]) (fun x hx => hmem x (List.mem_cons_of_mem c hx))
      simp only [List.length_append, List.length_singleton, List.length_cons,
        List.length_nil] at hlen ⊢
      omega

/-- C4 counterexample: the numeric suffix is appended once, keyed on a
per-candidate counter, and the suffixed id is neither re-checked nor
registered; a candidate equal to an earlier suffixed id therefore produces
duplicate node ids in a single sanitization pass. -/
theorem C4_counterexample :
    (sanitize_plan
        ⟨some [some ⟨some "a", some "a.py", none, none, none, none⟩,
               some ⟨some "a_2", some "b.py", none, none, none, none⟩,
               some ⟨some "a", some "c.py", none, none, none, none⟩], none⟩
        ⟨none, none, [], [], none⟩).files.map CFile.id = ["a", "a_2", "a_2"] ∧
    ¬ ((sanitize_plan
        ⟨some [some ⟨some "a", some "a.py", none, none, none, none⟩,
               some ⟨some "a_2", some "b.py", none, none, none, none⟩,
               some ⟨some "a", some "c.py", none, none, none, none⟩], none⟩
        ⟨none, none, [], [], none⟩).files.map CFile.id).Nodup := by
  have h : (sanitize_plan
      ⟨some [some ⟨some "a", some "a.py", none, none, none, none⟩,
             some ⟨some "a_2", some "b.py", none, none, none, none⟩,
             some ⟨some "a", some "c.py", none, none, none, none⟩], none⟩
      ⟨none, none, [], [], none⟩).files.map CFile.id = ["a", "a_2", "a_2"] := by decide
  refine ⟨h, ?_⟩
  rw [h]
  decide

/-- C4 (amended): the `m`-th occurrence of a candidate slug receives the id
`candidate` (`m = 1`) or `candidate_m` (`m ≥ 2`), and the resulting ids are
pairwise distinct provided no surviving candidate slug equals another
candidate followed by `_` and a decimal count — without that proviso the
ids can collide (see the counterexample). -/
theorem C4_amended_id_reservation (raw_files : List (Option RawEntry)) (ps : ProjectSpec)
    (H : ∀ x ∈ slugsOf raw_files ps, ∀ y ∈ slugsOf raw_files ps,
      ∀ k, k < (slugsOf raw_files ps).length + 1 → 2 ≤ k →
        x ≠ y ++ "_" ++ pyStrNat k) :
    (sanitizeFilesPass raw_files ps).sanitized_files.map CFile.id =
      assignIds [] (slugsOf raw_files ps) ∧
    ((sanitizeFilesPass raw_files ps).sanitized_files.map CFile.id).Nodup := by
  have hbridge : (sanitizeFilesPass raw_files ps).sanitized_files.map CFile.id =
      reserveIdsFrom [] (slugsOf raw_files ps) := by
    have h := pass_ids_bridge ps (infer_default_extension ps) raw_files ⟨[], [], []⟩
    simpa [sanitizeFilesPass, slugsOf] using h
  have hassign : reserveIdsFrom ([] : List (String × Nat)) (slugsOf raw_files ps) =
      assignIds [] (slugsOf raw_files ps) := by
    apply reserve_assign _ []
    intro c
    simp [getKey?]
  refine ⟨hbridge.trans hassign, ?_⟩
  rw [hbridge, hassign]
  exact assignIds_nodup_gen (slugsOf raw_files ps) H (slugsOf raw_files ps) []
    (fun c h => h) (by simp)

theorem C4_amended_id_reservation_witness :
    (sanitizeFilesPass [some ⟨some "a", some "a.py", none, none, none, none⟩,
        some ⟨some "a", some "b.py", none, none, none, none⟩,
        some ⟨some "b", some "c.py", none, none, none, none⟩]
      ⟨none, none, [], [], none⟩).sanitized_files.map CFile.id =
      assignIds [] (slugsOf [some ⟨some "a", some "a.py", none, none, none, none⟩,
        some ⟨some "a", some "b.py", none, none, none, none⟩,
        some ⟨some "b", some "c.py", none, none, none, none⟩] ⟨none, none, [], [], none⟩) ∧
    ((sanitizeFilesPass [some ⟨some "a", some "a.py", none, none, none, none⟩,
        some ⟨some "a", some "b.py", none, none, none, none⟩,
        some ⟨some "b", some "c.py", none, none, none, none⟩]
      ⟨none, none, [], [], none⟩).sanitized_files.map CFile.id).Nodup :=
  C4_amended_id_reservation _ _ (by decide)

theorem C6_default_edges_full_mesh_witness :
    (([⟨"a", "a.py", "A", "d"⟩, ⟨"b", "b.py", "B", "d"⟩] : List CFile).map CFile.id).Nodup ∧
    (2 ≤ ([⟨"a", "a.py", "A", "d"⟩, ⟨"b", "b.py", "B", "d"⟩] : List CFile).length ∧
      (generate_default_edges [⟨"a", "a.py", "A", "d"⟩, ⟨"b", "b.py", "B", "d"⟩]).length = 2 * (2 - 1)) := by
  refine ⟨by decide, by decide, ?_⟩
  have h := (C6_default_edges_full_mesh [⟨"a", "a.py", "A", "d"⟩, ⟨"b", "b.py", "B", "d"⟩]
    (by decide)).2 (by decide)
  exact h.1

/-! ### Claim C7: the edge duplicate key -/

/-- C7: refuted as written — the duplicate check of `create_edge` compares
only `from` and `to`, so an edge whose `from` and `to` match an existing
edge is rejected even though its `type` differs. -/
theorem C7_counterexample :
    create_edge ⟨⟨[], [], []⟩, [⟨"a", "b", "depends_on", "old"⟩]⟩
        ⟨"a", "b", "imports", "new"⟩ = Except.error "Edge already exists" ∧
    ("imports" : String) ≠ "depends_on" := by
  constructor
  · rfl
  · decide

/-- C7 (amended): the single-edge add rejects an edge as a duplicate exactly
when some existing edge has the same `(from, to)` pair — the `type` is not
part of the duplicate key — and otherwise appends the edge to the
document. -/
theorem C7_amended_duplicate_key (s : Sys) (e : CEdge) :
    ((∃ err, create_edge s e = Except.error err) ↔
      ∃ e2 ∈ s.edges, e2.from_ = e.from_ ∧ e2.to_ = e.to_) ∧
    ((¬ ∃ e2 ∈ s.edges, e2.from_ = e.from_ ∧ e2.to_ = e.to_) →
      create_edge s e = Except.ok { s with edges := s.edges ++ [e] }) := by
  rw [create_edge]
  by_cases h : s.edges.any (fun e2 => e2.from_ = e.from_ ∧ e2.to_ = e.to_) = true
  · rw [if_pos h]
    simp only [List.any_eq_true, decide_eq_true_eq] at h
    constructor
    · exact ⟨fun _ => h, fun _ => ⟨"Edge already exists", rfl⟩⟩
    · intro hn
      exact absurd h hn
  · rw [if_neg h]
    simp only [List.any_eq_true, decide_eq_true_eq] at h
    constructor
    · constructor
      · rintro ⟨err, herr⟩
        exact Except.noConfusion herr
      · intro hex
        exact absurd hex h
    · intro _
      rfl

theorem C7_amended_duplicate_key_witness :
    ∃ err, create_edge ⟨⟨[], [], []⟩, [⟨"x", "y", "t1", "d1"⟩]⟩
        ⟨"x", "y", "t2", "d2"⟩ = Except.error err :=
  (C7_amended_duplicate_key ⟨⟨[], [], []⟩, [⟨"x", "y", "t1", "d1"⟩]⟩
      ⟨"x", "y", "t2", "d2"⟩).1.mpr
    ⟨⟨"x", "y", "t1", "d1"⟩, by decide, by decide, by decide⟩

/-! ### Claim C10: `nodes/` prefix stripping -/

theorem getLastD_of_ne_nil {α : Type} (l : List α) (d d2 : α) (h : l ≠ []) :
    l.getLastD d = l.getLastD d2 := by
  rw [List.getLastD_eq_getLast?, List.getLastD_eq_getLast?]
  cases hq : l.getLast? with
  | none => exact absurd (List.getLast?_eq_none_iff.mp hq) h
  | some a => rfl

theorem stripNodes_nodes (s : String) : stripNodes ("nodes/" ++ s) = stripNodes s := by
  have h : ("nodes/" ++ s).data = 'n' :: 'o' :: 'd' :: 'e' :: 's' :: '/' :: s.data := by
    rw [String.data_append]
    rfl
  show String.mk (stripNodesL ("nodes/" ++ s).data) = String.mk (stripNodesL s.data)
  rw [h]
  rfl

theorem baseName_nodes (s : String) : baseName ("nodes/" ++ s) = baseName s := by
  have h : ("nodes/" ++ s).data = ('n' :: 'o' :: 'd' :: 'e' :: 's' :: []) ++ '/' :: s.data := by
    rw [String.data_append]
    rfl
  show String.mk (baseNameL ("nodes/" ++ s).data) = String.mk (baseNameL s.data)
  rw [h, baseNameL, baseNameL]
  rw [splitCh_append_sep '/' _ _ (by decide)]
  rw [List.getLastD_cons]
  exact congrArg String.mk
    (getLastD_of_ne_nil _ _ _ (splitCh_ne_nil '/' s.data))

/-- The filesystem effect of one path resolution: either nothing is created,
or exactly the cleaned path is created, and only when it was absent. -/
theorem resolve_spec (fn : String) (fs : List String) :
    (resolve_file_path fn fs).2 = fs ∨
    (stripNodes fn ∉ fs ∧ (resolve_file_path fn fs).2 = fs ++ [stripNodes fn]) := by
  rw [resolve_file_path]
  by_cases h : stripNodes fn ∈ fs
  · rw [if_pos h]
    exact Or.inl rfl
  · rw [if_neg h]
    cases hf : fs.find? (fun p => baseName p = baseName fn) with
    | some p => exact Or.inl rfl
    | none => exact Or.inr ⟨h, rfl⟩

theorem refreshStep_fs (acc : DbState) (e : String × (List (String × Val))) :
    (refreshStep acc e).fs = acc.fs ∨
    (getKey? e.2 "type" = some (Val.s "file") ∧
      stripNodes (recFileName e.1 e.2) ∉ acc.fs ∧
      (refreshStep acc e).fs = acc.fs ++ [stripNodes (recFileName e.1 e.2)]) := by
  rw [refreshStep]
  by_cases h : getKey? e.2 "type" = some (Val.s "file")
  · rw [if_pos h]
    have hres : (create_or_update_file_node e.1 e.2 acc.fs acc.files_db).2.1 =
        (resolve_file_path (recFileName e.1 e.2) acc.fs).2 := rfl
    rcases resolve_spec (recFileName e.1 e.2) acc.fs with h1 | ⟨h2, h3⟩
    · left
      show (create_or_update_file_node e.1 e.2 acc.fs acc.files_db).2.1 = acc.fs
      rw [hres, h1]
    · right
      refine ⟨h, h2, ?_⟩
      show (create_or_update_file_node e.1 e.2 acc.fs acc.files_db).2.1 =
        acc.fs ++ [stripNodes (recFileName e.1 e.2)]
      rw [hres, h3]
  · rw [if_neg h]
    exact Or.inl rfl

theorem fold_fs_sup : ∀ (md : List (String × (List (String × Val)))) (acc : DbState),
    acc.fs ⊆ (md.foldl refreshStep acc).fs := by
  intro md
  induction md with
  | nil => exact fun acc => List.Subset.refl _
  | cons e md ih =>
    intro acc
    rw [List.foldl_cons]
    refine List.Subset.trans ?_ (ih (refreshStep acc e))
    rcases refreshStep_fs acc e with h | ⟨_, _, h⟩
    · rw [h]
      exact List.Subset.refl _
    · rw [h]
      exact List.subset_append_left _ _

theorem refresh_fs_sup (md : List (String × (List (String × Val))))
    (fs : List String) (fdb : List (String × FileNode)) :
    fs ⊆ (refresh_files_from_metadata md fs fdb).fs := by
  show fs ⊆ (md.foldl refreshStep ⟨[], fs, fdb⟩).fs
  exact fold_fs_sup md ⟨[], fs, fdb⟩

theorem save_metadata_fs_sup (db : DbState) (md : List (String × (List (String × Val)))) :
    db.fs ⊆ (save_metadata db md).fs :=
  refresh_fs_sup md db.fs db.files_db

theorem update_node_metadata_fs_sup (db : DbState) (a b c : String) (x y : Int) :
    db.fs ⊆ (update_node_metadata db a b c x y).fs :=
  save_metadata_fs_sup db _

/-- C10: path resolution strips every leading `nodes/` prefix, so
`"a.py"`, `"nodes/a.py"` and `"nodes/nodes/a.py"` resolve identically (on
every filesystem state), and direct file creation materializes the stripped
`filePath`. -/
theorem C10_nodes_prefix_stripping :
    (∀ (s : String) (fs : List String),
      resolve_file_path ("nodes/" ++ s) fs = resolve_file_path s fs) ∧
    (∀ fs : List String,
      resolve_file_path "nodes/a.py" fs = resolve_file_path "a.py" fs ∧
      resolve_file_path "nodes/nodes/a.py" fs = resolve_file_path "a.py" fs) ∧
    (∀ (db : DbState) (d : FileCreateData) (db2 : DbState) (nf : FileNode),
      FileDatabase.create_file db d = Except.ok (db2, nf) →
      stripNodes d.filePath ∈ db2.fs) := by
  have hres : ∀ (s : String) (fs : List String),
      resolve_file_path ("nodes/" ++ s) fs = resolve_file_path s fs := by
    intro s fs
    simp only [resolve_file_path, stripNodes_nodes, baseName_nodes]
  refine ⟨hres, ?_, ?_⟩
  · intro fs
    constructor
    · have h := hres "a.py" fs
      rw [show ("nodes/" ++ "a.py" : String) = "nodes/a.py" from rfl] at h
      exact h
    · have h1 := hres "nodes/a.py" fs
      have h2 := hres "a.py" fs
      rw [show ("nodes/" ++ "nodes/a.py" : String) = "nodes/nodes/a.py" from rfl] at h1
      rw [show ("nodes/" ++ "a.py" : String) = "nodes/a.py" from rfl] at h2
      exact h1.trans h2
  · intro db d db2 nf hok
    rw [FileDatabase.create_file] at hok
    by_cases hdup : db.files_db.any (fun p => p.2.filePath = some d.filePath) = true
    · rw [if_pos hdup] at hok
      exact Except.noConfusion hok
    · rw [if_neg hdup] at hok
      simp only [Except.ok.injEq, Prod.mk.injEq] at hok
      obtain ⟨h1, _⟩ := hok
      rw [← h1]
      have hbase : ∀ fs0 : List String, stripNodes d.filePath ∈
          (if stripNodes d.filePath ∈ fs0 then fs0 else fs0 ++ [stripNodes d.filePath]) := by
        intro fs0
        by_cases hc : stripNodes d.filePath ∈ fs0
        · rw [if_pos hc]
          exact hc
        · rw [if_neg hc]
          exact List.mem_append_right _ (List.mem_singleton.mpr rfl)
      split
      · apply save_metadata_fs_sup
        apply update_node_metadata_fs_sup
        exact hbase _
      · apply update_node_metadata_fs_sup
        exact hbase _

theorem C10_nodes_prefix_stripping_witness :
    ∃ (db2 : DbState) (nf : FileNode),
      FileDatabase.create_file ⟨[], [], []⟩ ⟨"nodes/x.py", "python", "", "", none⟩ =
        Except.ok (db2, nf) ∧ stripNodes "nodes/x.py" ∈ db2.fs := by
  refine ⟨_, _, rfl, ?_⟩
  exact C10_nodes_prefix_stripping.2.2 ⟨[], [], []⟩
    ⟨"nodes/x.py", "python", "", "", none⟩ _ _ rfl

theorem create_or_update_rec (id : String) (r : List (String × Val))
    (fs : List String) (fdb : List (String × FileNode)) :
    recRel id r (create_or_update_file_node id r fs fdb).1 := by
  show recRel id r (if (getKey? r "fileName").isSome then r
    else setKey r "fileName" (Val.s (recFileName id r)))
  by_cases h : (getKey? r "fileName").isSome
  · rw [if_pos h]
    exact Or.inl rfl
  · rw [if_neg h]
    exact Or.inr ⟨Option.not_isSome_iff_eq_none.mp h, rfl⟩

theorem refreshStep_metadata (acc : DbState) (e : String × (List (String × Val))) :
    ∃ r2, (refreshStep acc e).metadata = acc.metadata ++ [(e.1, r2)] ∧ recRel e.1 e.2 r2 := by
  rw [refreshStep]
  by_cases h : getKey? e.2 "type" = some (Val.s "file")
  · rw [if_pos h]
    exact ⟨_, rfl, create_or_update_rec e.1 e.2 acc.fs acc.files_db⟩
  · rw [if_neg h]
    exact ⟨e.2, rfl, Or.inl rfl⟩

theorem fold_metadata_rel : ∀ (md : List (String × (List (String × Val)))) (acc : DbState),
    ∃ tail, (md.foldl refreshStep acc).metadata = acc.metadata ++ tail ∧
      List.Forall₂ entryRel md tail := by
  intro md
  induction md with
  | nil =>
    intro acc
    exact ⟨[], by simp, List.Forall₂.nil⟩
  | cons e md ih =>
    intro acc
    rw [List.foldl_cons]
    obtain ⟨tail, h1, h2⟩ := ih (refreshStep acc e)
    obtain ⟨r2, hm, hr⟩ := refreshStep_metadata acc e
    refine ⟨(e.1, r2) :: tail, ?_, List.Forall₂.cons ⟨rfl, hr⟩ h2⟩
    rw [h1, hm, List.append_assoc, List.singleton_append]

theorem refresh_metadata_rel (md : List (String × (List (String × Val))))
    (fs : List String) (fdb : List (String × FileNode)) :
    List.Forall₂ entryRel md (refresh_files_from_metadata md fs fdb).metadata := by
  show List.Forall₂ entryRel md (md.foldl refreshStep ⟨[], fs, fdb⟩).metadata
  obtain ⟨tail, h1, h2⟩ := fold_metadata_rel md ⟨[], fs, fdb⟩
  rw [h1]
  exact h2

theorem forall2_getKey {m m2 : List (String × (List (String × Val)))}
    (h : List.Forall₂ entryRel m m2) (k : String) :
    (getKey? m k = none → getKey? m2 k = none) ∧
    (∀ r, getKey? m k = some r → ∃ r2, getKey? m2 k = some r2 ∧ recRel k r r2) := by
  induction h with
  | nil => exact ⟨fun _ => rfl, fun r hr => Option.noConfusion hr⟩
  | cons ha hl ih =>
    rename_i a b l1 l2
    obtain ⟨hb1, hb2⟩ := ha
    constructor
    · intro hn
      rw [getKey?_cons] at hn
      rw [getKey?_cons]
      by_cases hk : a.1 = k
      · rw [if_pos hk] at hn
        exact Option.noConfusion hn
      · rw [if_neg hk] at hn
        rw [if_neg (by rw [hb1]; exact hk)]
        exact ih.1 hn
    · intro r hr
      rw [getKey?_cons] at hr
      by_cases hk : a.1 = k
      · rw [if_pos hk] at hr
        obtain rfl : a.2 = r := Option.some.inj hr
        refine ⟨b.2, ?_, ?_⟩
        · rw [getKey?_cons, if_pos (by rw [hb1]; exact hk)]
        · rw [← hk]
          exact hb2
      · rw [if_neg hk] at hr
        obtain ⟨r2, h1, h2⟩ := ih.2 r hr
        refine ⟨r2, ?_, h2⟩
        rw [getKey?_cons, if_neg (by rw [hb1]; exact hk)]
        exact h1

theorem recRel_getKey {id : String} {a b : List (String × Val)} (h : recRel id a b)
    {k : String} {v : Val} (hk : getKey? a k = some v) : getKey? b k = some v := by
  rcases h with rfl | ⟨hn, rfl⟩
  · exact hk
  · rw [getKey?_setKey]
    by_cases hf : k = "fileName"
    · rw [hf] at hk
      rw [hk] at hn
      exact Option.noConfusion hn
    · rw [if_neg hf]
      exact hk

theorem getKey?_append {α : Type} (m1 m2 : List (String × α)) (k : String) :
    getKey? (m1 ++ m2) k = match getKey? m1 k with
      | some v => some v
      | none => getKey? m2 k := by
  induction m1 with
  | nil => rfl
  | cons x m ih =>
    rw [List.cons_append, getKey?_cons, getKey?_cons]
    by_cases hx : x.1 = k
    · rw [if_pos hx, if_pos hx]
    · rw [if_neg hx, if_neg hx]
      exact ih

theorem getKey?_filter_keep {α : Type} (m : List (String × α)) (q : String × α → Bool)
    (k : String) (hq : ∀ p : String × α, p.1 = k → q p = true) :
    getKey? (m.filter q) k = getKey? m k := by
  induction m with
  | nil => rfl
  | cons x m ih =>
    by_cases hx : x.1 = k
    · rw [List.filter_cons, if_pos (hq x hx), getKey?_cons, getKey?_cons, if_pos hx, if_pos hx]
    · rw [List.filter_cons]
      by_cases hqx : q x = true
      · rw [if_pos hqx, getKey?_cons, getKey?_cons, if_neg hx, if_neg hx]
        exact ih
      · rw [if_neg hqx, getKey?_cons, if_neg hx]
        exact ih

/-- Committing a record under a key and reloading: the stored record is the
written one, up to the loop's `fileName` defaulting. -/
theorem setKey_save_lookup (db : DbState) (k : String) (r : List (String × Val)) :
    ∃ r2, getKey? (save_metadata db (setKey db.metadata k r)).metadata k = some r2 ∧
      recRel k r r2 := by
  have hget : getKey? (setKey db.metadata k r) k = some r := by
    rw [getKey?_setKey, if_pos rfl]
  exact (forall2_getKey
    (refresh_metadata_rel (setKey db.metadata k r) db.fs db.files_db) k).2 r hget

/-- The record committed by `update_node_metadata`: the five fixed fields
read back as written. -/
theorem upsert_fixed_fields (db : DbState) (node_id node_type ds : String) (x y : Int) :
    ∃ r2, getKey? (update_node_metadata db node_id node_type ds x y).metadata node_id =
        some r2 ∧
      getKey? r2 "description" = some (Val.s ds) ∧
      getKey? r2 "x" = some (Val.n x) ∧ getKey? r2 "y" = some (Val.n y) := by
  obtain ⟨r2, h1, h2⟩ := setKey_save_lookup db node_id
    ([("id", Val.s node_id), ("type", Val.s node_type), ("description", Val.s ds),
      ("x", Val.n x), ("y", Val.n y)] ++
      ((getKey? db.metadata node_id).getD []).filter
        (fun p => p.1 ∉ (["id", "type", "description", "x", "y"] : List String)))
  have hfix : ∀ k2 : String,
      getKey? ([("id", Val.s node_id), ("type", Val.s node_type), ("description", Val.s ds),
        ("x", Val.n x), ("y", Val.n y)] : List (String × Val)) k2 =
      (if "id" = k2 then some (Val.s node_id) else if "type" = k2 then some (Val.s node_type)
        else if "description" = k2 then some (Val.s ds) else if "x" = k2 then some (Val.n x)
        else if "y" = k2 then some (Val.n y) else none) := by
    intro k2
    rw [getKey?_cons, getKey?_cons, getKey?_cons, getKey?_cons, getKey?_cons]
    rfl
  refine ⟨r2, h1, ?_, ?_, ?_⟩
  · refine recRel_getKey h2 ?_
    rw [getKey?_append, hfix "description"]
    rfl
  · refine recRel_getKey h2 ?_
    rw [getKey?_append, hfix "x"]
    rfl
  · refine recRel_getKey h2 ?_
    rw [getKey?_append, hfix "y"]
    rfl

/-! ### Claim C8: upsert merge semantics -/

/-- C8: the single-node metadata upsert has merge semantics — every field of
the existing record other than the five fixed ones (`id`, `type`,
`description`, `x`, `y`) is preserved under its old value; a position update
re-reads the stored description and commits it unchanged; and a description
update commits the in-memory node's (synced) position. -/
theorem C8_upsert_merge :
    (∀ (db : DbState) (node_id node_type description : String) (x y : Int)
        (k : String) (v : Val),
      k ∉ (["id", "type", "description", "x", "y"] : List String) →
      getKey? ((getKey? db.metadata node_id).getD []) k = some v →
      ∃ r2, getKey? (update_node_metadata db node_id node_type description x y).metadata
          node_id = some r2 ∧ getKey? r2 k = some v) ∧
    (∀ (db : DbState) (file_id : String) (x y : Int) (d : String) (db2 : DbState),
      getStr ((getKey? db.metadata file_id).getD []) "description" = some d →
      update_file_position db file_id x y = Except.ok db2 →
      ∃ r2, getKey? db2.metadata file_id = some r2 ∧
        getKey? r2 "description" = some (Val.s d)) ∧
    (∀ (db : DbState) (file_id description : String) (db2 : DbState) (node : FileNode),
      getKey? db.files_db file_id = some node →
      update_file_description db file_id description = Except.ok db2 →
      ∃ r2, getKey? db2.metadata file_id = some r2 ∧
        getKey? r2 "x" = some (Val.n node.x) ∧ getKey? r2 "y" = some (Val.n node.y)) := by
  refine ⟨?_, ?_, ?_⟩
  · intro db node_id node_type description x y k v hk hv
    have hk0 := hk
    simp only [List.mem_cons, List.mem_singleton, not_or] at hk
    obtain ⟨h_id, h_ty, h_de, h_x, h_y, _⟩ := hk
    obtain ⟨r2, h1, h2⟩ := setKey_save_lookup db node_id
      ([("id", Val.s node_id), ("type", Val.s node_type), ("description", Val.s description),
        ("x", Val.n x), ("y", Val.n y)] ++
        ((getKey? db.metadata node_id).getD []).filter
          (fun p => p.1 ∉ (["id", "type", "description", "x", "y"] : List String)))
    refine ⟨r2, h1, ?_⟩
    refine recRel_getKey h2 ?_
    rw [getKey?_append]
    have h5 : getKey? ([("id", Val.s node_id), ("type", Val.s node_type),
        ("description", Val.s description), ("x", Val.n x), ("y", Val.n y)] :
        List (String × Val)) k = none := by
      rw [getKey?_cons, if_neg (fun h => h_id h.symm), getKey?_cons,
        if_neg (fun h => h_ty h.symm), getKey?_cons, if_neg (fun h => h_de h.symm),
        getKey?_cons, if_neg (fun h => h_x h.symm), getKey?_cons,
        if_neg (fun h => h_y h.symm)]
      rfl
    rw [h5]
    show getKey? (((getKey? db.metadata node_id).getD []).filter
      (fun p => p.1 ∉ (["id", "type", "description", "x", "y"] : List String))) k = some v
    rw [getKey?_filter_keep]
    · exact hv
    · intro p hp
      show decide (p.1 ∉ (["id", "type", "description", "x", "y"] : List String)) = true
      rw [hp]
      exact decide_eq_true hk0
  · intro db file_id x y d db2 hdesc hok
    rw [update_file_position] at hok
    rcases hX : getKey? db.files_db file_id with _ | node
    · rw [hX] at hok
      exact Except.noConfusion hok
    · rw [hX] at hok
      have h2 := Except.ok.inj hok
      subst h2
      dsimp only
      rw [hdesc]
      obtain ⟨r2, h1, hdesc2, _, _⟩ := upsert_fixed_fields
        { db with files_db := setKey db.files_db file_id { node with x := x, y := y } }
        file_id "file" d x y
      exact ⟨r2, h1, hdesc2⟩
  · intro db file_id description db2 node hnode hok
    rw [update_file_description] at hok
    rw [hnode] at hok
    have h2 := Except.ok.inj hok
    subst h2
    obtain ⟨r2, h1, _, hx, hy⟩ := upsert_fixed_fields db file_id "file" description node.x node.y
    exact ⟨r2, h1, hx, hy⟩

theorem C8_upsert_merge_witness :
    ∃ r2, getKey? (update_node_metadata
        ⟨[("n1", [("fileName", Val.s "keep.py"), ("description", Val.s "old")])],
          ["keep.py"], []⟩ "n1" "file" "nd" 5 6).metadata "n1" = some r2 ∧
      getKey? r2 "fileName" = some (Val.s "keep.py") :=
  C8_upsert_merge.1 ⟨[("n1", [("fileName", Val.s "keep.py"), ("description", Val.s "old")])],
      ["keep.py"], []⟩ "n1" "file" "nd" 5 6 "fileName" (Val.s "keep.py")
    (by decide) (by decide)

/-! ### Claim C2: uniqueness across committed states -/

theorem forall2_keys {m m2 : List (String × (List (String × Val)))}
    (h : List.Forall₂ entryRel m m2) : keys m2 = keys m := by
  induction h with
  | nil => rfl
  | cons ha hl ih =>
    rename_i a b l1 l2
    show b.1 :: keys l2 = a.1 :: keys l1
    rw [ha.1, ih]

theorem keys_setKey {α : Type} (m : List (String × α)) (k : String) (v : α) :
    keys (setKey m k v) = keys m ∨
    (k ∉ keys m ∧ keys (setKey m k v) = keys m ++ [k]) := by
  rw [setKey]
  by_cases h : m.any (fun p => p.1 = k) = true
  · rw [if_pos h]
    left
    rw [keys, keys, List.map_map]
    apply List.map_congr_left
    intro p hp
    show (if p.1 = k then (k, v) else p).1 = p.1
    by_cases hpk : p.1 = k
    · rw [if_pos hpk, hpk]
    · rw [if_neg hpk]
  · rw [if_neg h]
    right
    constructor
    · intro hk
      apply h
      obtain ⟨p, hp, hpk⟩ := List.mem_map.mp hk
      exact List.any_eq_true.mpr ⟨p, hp, by simp [hpk]⟩
    · rw [keys, keys, List.map_append]
      rfl

theorem nodup_keys_setKey {α : Type} (m : List (String × α)) (k : String) (v : α)
    (h : (keys m).Nodup) : (keys (setKey m k v)).Nodup := by
  rcases keys_setKey m k v with h1 | ⟨h2, h3⟩
  · rw [h1]
    exact h
  · rw [h3]
    refine List.Nodup.append h (List.nodup_singleton k) ?_
    intro a ha hb
    rw [List.mem_singleton] at hb
    exact h2 (hb ▸ ha)

theorem nodup_keys_delKey {α : Type} (m : List (String × α)) (k : String)
    (h : (keys m).Nodup) : (keys (delKey m k)).Nodup :=
  h.sublist ((List.filter_sublist m).map Prod.fst)

theorem nodup_keys_save (db : DbState) (md : List (String × (List (String × Val))))
    (h : (keys md).Nodup) : (keys (save_metadata db md).metadata).Nodup := by
  have hk : keys (save_metadata db md).metadata = keys md :=
    forall2_keys (refresh_metadata_rel md db.fs db.files_db)
  rw [hk]
  exact h

theorem nodup_keys_upsert (db : DbState) (a b c : String) (x y : Int)
    (h : (keys db.metadata).Nodup) :
    (keys (update_node_metadata db a b c x y).metadata).Nodup :=
  nodup_keys_save db
    (setKey db.metadata a
      ([("id", Val.s a), ("type", Val.s b), ("description", Val.s c),
        ("x", Val.n x), ("y", Val.n y)] ++
        ((getKey? db.metadata a).getD []).filter
          (fun p => p.1 ∉ (["id", "type", "description", "x", "y"] : List String))))
    (nodup_keys_setKey _ _ _ h)

theorem nodup_keys_remove (db : DbState) (k : String)
    (h : (keys db.metadata).Nodup) : (keys (remove_node_metadata db k).metadata).Nodup := by
  rw [remove_node_metadata]
  split
  · exact nodup_keys_save _ _ (nodup_keys_delKey _ _ h)
  · exact h

theorem foldl_pres {β γ : Type} (P : γ → Prop) (g : γ → β → γ)
    (hg : ∀ acc b, P acc → P (g acc b)) :
    ∀ (l : List β) (acc : γ), P acc → P (l.foldl g acc) := by
  intro l
  induction l with
  | nil => exact fun acc h => h
  | cons b l ih => exact fun acc h => ih (g acc b) (hg acc b h)

theorem payload_keys_nodup (fp : List CFile) (ps : ProjectSpec) :
    (keys (prepare_project_payload fp ps).1).Nodup := by
  rw [prepare_project_payload]
  refine foldl_pres
    (fun acc : (List (String × (List (String × Val)))) × List String =>
      (keys acc.1).Nodup) _ ?_ _ _ ?_
  · intro acc pair hacc
    dsimp only
    repeat' first
      | exact hacc
      | exact nodup_keys_setKey _ _ _ hacc
      | split
  · exact List.nodup_nil

/-- C2: refuted as written — a bulk plan apply commits two File records with
distinct ids (`auth` and `auth_2`) but the same `fileName`
(`backend/auth.py`): paths are not deduplicated. -/
theorem C2_counterexample :
    getStr ((getKey? (applyOp ⟨⟨[], [], []⟩, []⟩
        (Op.applyPlan
          ⟨some [some ⟨some "auth", some "backend/auth.py", none, none, none, none⟩,
                 some ⟨some "auth", some "backend/auth.py", none, none, none, none⟩], none⟩
          ⟨none, none, [], [], none⟩)).db.metadata "auth").getD []) "fileName" =
      some "backend/auth.py" ∧
    getStr ((getKey? (applyOp ⟨⟨[], [], []⟩, []⟩
        (Op.applyPlan
          ⟨some [some ⟨some "auth", some "backend/auth.py", none, none, none, none⟩,
                 some ⟨some "auth", some "backend/auth.py", none, none, none, none⟩], none⟩
          ⟨none, none, [], [], none⟩)).db.metadata "auth_2").getD []) "fileName" =
      some "backend/auth.py" ∧
    ("auth" : String) ≠ "auth_2" := by
  refine ⟨by decide, by decide, by decide⟩

/-- C2 (amended): the id half of the uniqueness invariant does hold — the
empty workspace has no duplicate node id, and every committed operation
(including a bulk plan apply) preserves distinctness of the metadata
document's node ids. -/
theorem C2_amended_id_uniqueness (s : Sys) (op : Op) :
    (keys (⟨⟨[], [], []⟩, []⟩ : Sys).db.metadata).Nodup ∧
    ((keys s.db.metadata).Nodup → (keys (applyOp s op).db.metadata).Nodup) := by
  refine ⟨List.nodup_nil, ?_⟩
  intro h
  cases op with
  | createFile d =>
    simp only [applyOp]
    cases hc : FileDatabase.create_file s.db d with
    | error e => exact h
    | ok r =>
      rw [FileDatabase.create_file] at hc
      by_cases hdup : s.db.files_db.any (fun p => p.2.filePath = some d.filePath) = true
      · rw [if_pos hdup] at hc
        exact Except.noConfusion hc
      · rw [if_neg hdup] at hc
        have hr1 := congrArg Prod.fst (Except.ok.inj hc)
        show (keys r.1.metadata).Nodup
        rw [← hr1]
        repeat' first
          | exact h
          | apply nodup_keys_save
          | apply nodup_keys_setKey
          | apply nodup_keys_upsert
          | split
  | createFolder d =>
    simp only [applyOp]
    exact nodup_keys_save _ _ (nodup_keys_setKey _ _ _ h)
  | updateFolder folder_id d =>
    simp only [applyOp]
    cases hc : update_folder s.db folder_id d with
    | error e => exact h
    | ok db2 =>
      simp only [update_folder] at hc
      split at hc
      · exact Except.noConfusion hc
      · split at hc
        · exact Except.noConfusion hc
        · have h2 := Except.ok.inj hc
          subst h2
          exact nodup_keys_save _ _ (nodup_keys_setKey _ _ _ h)
  | updateNodeMeta node_id node_type description x y =>
    simp only [applyOp]
    exact nodup_keys_upsert _ _ _ _ _ _ h
  | updatePosition file_id x y =>
    simp only [applyOp]
    cases hc : update_file_position s.db file_id x y with
    | error e => exact h
    | ok db2 =>
      simp only [update_file_position] at hc
      split at hc
      · exact Except.noConfusion hc
      · have h2 := Except.ok.inj hc
        subst h2
        exact nodup_keys_upsert _ _ _ _ _ _ h
  | updateDescription file_id description =>
    simp only [applyOp]
    cases hc : update_file_description s.db file_id description with
    | error e => exact h
    | ok db2 =>
      simp only [update_file_description] at hc
      split at hc
      · exact Except.noConfusion hc
      · have h2 := Except.ok.inj hc
        subst h2
        exact nodup_keys_upsert _ _ _ _ _ _ h
  | moveFile file_id folder_id =>
    simp only [applyOp]
    cases hc : move_file_to_folder s file_id folder_id with
    | error e => exact h
    | ok s2 =>
      simp only [move_file_to_folder] at hc
      split at hc
      · exact Except.noConfusion hc
      · have h2 := Except.ok.inj hc
        subst h2
        show (keys (save_metadata _ _).metadata).Nodup
        apply nodup_keys_save
        repeat' first
          | exact h
          | apply nodup_keys_setKey
          | split
  | deleteFile file_id =>
    simp only [applyOp]
    cases hc : FileDatabase.delete_file s.db file_id with
    | error e => exact h
    | ok db2 =>
      simp only [FileDatabase.delete_file] at hc
      split at hc
      · exact Except.noConfusion hc
      · have h2 := Except.ok.inj hc
        subst h2
        apply nodup_keys_remove
        exact h
  | deleteFolder folder_id =>
    simp only [applyOp]
    cases hc : delete_folder s folder_id with
    | error e => exact h
    | ok s2 =>
      simp only [delete_folder] at hc
      split at hc
      · exact Except.noConfusion hc
      · split at hc
        · exact Except.noConfusion hc
        · have h2 := Except.ok.inj hc
          subst h2
          show (keys (save_metadata _ _).metadata).Nodup
          apply nodup_keys_save
          refine foldl_pres
            (fun acc : DbState × (List (String × (List (String × Val)))) =>
              (keys acc.2).Nodup) _ ?_ _ _ ?_
          · intro acc fid hacc
            dsimp only
            cases hdel : FileDatabase.delete_file acc.1 fid with
            | ok db2 => exact nodup_keys_delKey _ _ hacc
            | error e => exact hacc
          · exact nodup_keys_delKey _ _ h
  | addEdge e =>
    simp only [applyOp]
    cases hc : create_edge s e with
    | error e2 => exact h
    | ok s2 =>
      rw [create_edge] at hc
      split at hc
      · exact Except.noConfusion hc
      · have h2 := Except.ok.inj hc
        subst h2
        exact h
  | setEdgesOp es => exact h
  | deleteEdgeOp a b t => exact h
  | applyPlan plan spec =>
    simp only [applyOp]
    split
    · exact h
    · split
      · exact h
      · exact payload_keys_nodup _ _

theorem C2_amended_id_uniqueness_witness :
    (keys (applyOp ⟨⟨[], [], []⟩, []⟩
      (Op.createFolder ⟨"p", 100, 100, 600, 400, none⟩)).db.metadata).Nodup :=
  (C2_amended_id_uniqueness ⟨⟨[], [], []⟩, []⟩
    (Op.createFolder ⟨"p", 100, 100, 600, 400, none⟩)).2 (by decide)

/-! ### Claim C1: the folder-delete cascade -/

theorem fold_fs_nodup : ∀ (md : List (String × (List (String × Val)))) (acc : DbState),
    acc.fs.Nodup → (md.foldl refreshStep acc).fs.Nodup := by
  intro md
  induction md with
  | nil => exact fun acc h => h
  | cons e md ih =>
    intro acc h
    rw [List.foldl_cons]
    refine ih _ ?_
    rcases refreshStep_fs acc e with hfs | ⟨_, hnm, hfs⟩
    · rw [hfs]
      exact h
    · rw [hfs]
      refine List.Nodup.append h (List.nodup_singleton _) ?_
      intro x hx hx2
      rw [List.mem_singleton] at hx2
      exact hnm (hx2 ▸ hx)

theorem fold_fs_avoid (q : String) :
    ∀ (md : List (String × (List (String × Val)))) (acc : DbState),
    q ∉ acc.fs →
    (∀ e ∈ md, getKey? e.2 "type" = some (Val.s "file") →
      stripNodes (recFileName e.1 e.2) ≠ q) →
    q ∉ (md.foldl refreshStep acc).fs := by
  intro md
  induction md with
  | nil => exact fun acc h _ => h
  | cons e md ih =>
    intro acc hq hmd
    rw [List.foldl_cons]
    refine ih (refreshStep acc e) ?_ (fun e2 he2 => hmd e2 (List.mem_cons_of_mem e he2))
    rcases refreshStep_fs acc e with hfs | ⟨hty, hnm, hfs⟩
    · rw [hfs]
      exact hq
    · rw [hfs]
      intro hmem
      rcases List.mem_append.mp hmem with hin | hin
      · exact hq hin
      · rw [List.mem_singleton] at hin
        exact absurd hin.symm (hmd e (List.mem_cons_self e md) hty)

theorem refresh_fs_nodup (md : List (String × (List (String × Val))))
    (fs : List String) (fdb : List (String × FileNode)) (h : fs.Nodup) :
    (refresh_files_from_metadata md fs fdb).fs.Nodup :=
  fold_fs_nodup md ⟨[], fs, fdb⟩ h

theorem refresh_fs_avoid (md : List (String × (List (String × Val))))
    (fs : List String) (fdb : List (String × FileNode)) (q : String)
    (hq : q ∉ fs)
    (hmd : ∀ e ∈ md, getKey? e.2 "type" = some (Val.s "file") →
      stripNodes (recFileName e.1 e.2) ≠ q) :
    q ∉ (refresh_files_from_metadata md fs fdb).fs :=
  fold_fs_avoid q md ⟨[], fs, fdb⟩ hq hmd

theorem mem_delKey {α : Type} (m : List (String × α)) (k : String) (e : String × α)
    (h : e ∈ delKey m k) : e ∈ m ∧ e.1 ≠ k := by
  obtain ⟨h1, h2⟩ := List.mem_filter.mp h
  exact ⟨h1, of_decide_eq_true h2⟩

theorem getKey?_delKey {α : Type} (m : List (String × α)) (k k2 : String) (h : k2 ≠ k) :
    getKey? (delKey m k) k2 = getKey? m k2 := by
  rw [delKey, getKey?_filter_keep]
  intro p hp
  show decide (p.1 ≠ k) = true
  rw [hp]
  exact decide_eq_true h

theorem getKey?_delKey_self {α : Type} (m : List (String × α)) (k : String) :
    getKey? (delKey m k) k = none := by
  induction m with
  | nil => rfl
  | cons x m ih =>
    rw [delKey, List.filter_cons]
    by_cases hx : x.1 = k
    · rw [if_neg (by simp [hx])]
      exact ih
    · rw [if_pos (by simp [hx]), getKey?_cons, if_neg hx]
      exact ih

theorem getKey?_of_mem_nodup {α : Type} (m : List (String × α)) (h : (keys m).Nodup)
    (p : String × α) (hp : p ∈ m) : getKey? m p.1 = some p.2 := by
  induction m with
  | nil => exact absurd hp (List.not_mem_nil p)
  | cons x m ih =>
    rcases List.mem_cons.mp hp with rfl | hp2
    · rw [getKey?_cons, if_pos rfl]
    · rw [getKey?_cons]
      have hx : x.1 ≠ p.1 := by
        intro hxe
        have : p.1 ∈ keys m := List.mem_map.mpr ⟨p, hp2, rfl⟩
        rw [← hxe] at this
        exact (List.nodup_cons.mp h).1 this
      rw [if_neg hx]
      exact ih (List.nodup_cons.mp h).2 hp2

theorem forall2_mem {α β : Type} {R : α → β → Prop} {l1 : List α} {l2 : List β}
    (h : List.Forall₂ R l1 l2) : ∀ b ∈ l2, ∃ a ∈ l1, R a b := by
  induction h with
  | nil => exact fun b hb => absurd hb (List.not_mem_nil b)
  | cons ha hl ih =>
    intro b2 hb2
    rcases List.mem_cons.mp hb2 with rfl | hb3
    · exact ⟨_, List.mem_cons_self _ _, ha⟩
    · obtain ⟨a2, ha2, hr⟩ := ih b2 hb3
      exact ⟨a2, List.mem_cons_of_mem _ ha2, hr⟩

theorem recRel_fileName {id : String} {a b : List (String × Val)} (h : recRel id a b) :
    recFileName id b = recFileName id a := by
  rcases h with rfl | ⟨hn, rfl⟩
  · rfl
  · rw [recFileName, getKey?_setKey, if_pos rfl]
    have hself : recFileName id a = id ++ ".txt" := by
      rw [recFileName, hn]
    rw [hself]
    show (if (id ++ ".txt" : String) = "" then id ++ ".txt" else id ++ ".txt") = id ++ ".txt"
    exact ite_self _

theorem startsWith_ne_empty (p pre : String) (h : pyStartsWith p pre = true)
    (hpre : pre.data ≠ []) : p ≠ "" := by
  intro hp
  rw [pyStartsWith] at h
  have hpref := List.isPrefixOf_iff_prefix.mp h
  rw [hp] at hpref
  have : pre.data = [] := List.prefix_nil.mp hpref
  exact hpre this

/-- The effect of `delete_file` on a node whose stored `fileName` is `p`:
the call succeeds, the committed document is the reconciliation of the
key-deleted document, filesystem distinctness is preserved, and a path that
was absent (or is `p` itself) stays absent provided no surviving file
record materializes it. -/
theorem delete_file_spec (db : DbState) (fid p : String) (r : List (String × Val))
    (h1 : getKey? db.metadata fid = some r)
    (h2 : getKey? r "fileName" = some (Val.s p)) :
    ∃ db2, FileDatabase.delete_file db fid = Except.ok db2 ∧
      List.Forall₂ entryRel (delKey db.metadata fid) db2.metadata ∧
      (db.fs.Nodup → db2.fs.Nodup) ∧
      (db.fs.Nodup → ∀ q, (q ∉ db.fs ∨ q = p) →
        (∀ e ∈ delKey db.metadata fid, getKey? e.2 "type" = some (Val.s "file") →
          stripNodes (recFileName e.1 e.2) ≠ q) →
        q ∉ db2.fs) := by
  have hsome : (getKey? db.metadata fid).isSome = true := by
    rw [h1]
    rfl
  have hApre : ∀ q, db.fs.Nodup → (q ∉ db.fs ∨ q = p) →
      q ∉ (if p ∈ db.fs then db.fs.erase p else db.fs) := by
    intro q hnd hq
    by_cases hp : p ∈ db.fs
    · rw [if_pos hp]
      rcases hq with hq | rfl
      · intro hmem
        exact hq (List.mem_of_mem_erase hmem)
      · intro hmem
        exact ((List.Nodup.mem_erase_iff hnd).mp hmem).1 rfl
    · rw [if_neg hp]
      rcases hq with hq | rfl
      · exact hq
      · exact hp
  have hAnodup : db.fs.Nodup → (if p ∈ db.fs then db.fs.erase p else db.fs).Nodup := by
    intro hnd
    by_cases hp : p ∈ db.fs
    · rw [if_pos hp]
      exact hnd.erase p
    · rw [if_neg hp]
      exact hnd
  have hstep1 : FileDatabase.delete_file db fid = Except.ok
      (let file_name := match getKey? r "fileName" with
        | some (Val.s v) => v
        | _ => fid ++ ".txt"
       let dbA : DbState :=
         { db with fs := if file_name ∈ db.fs then db.fs.erase file_name else db.fs }
       let dbB := remove_node_metadata dbA fid
       { dbB with files_db :=
          if (getKey? dbB.files_db fid).isSome then delKey dbB.files_db fid
          else dbB.files_db }) := by
    rw [FileDatabase.delete_file, h1]
  rw [h2] at hstep1
  dsimp only at hstep1
  refine ⟨_, hstep1, ?_, ?_, ?_⟩
  · dsimp only
    rw [remove_node_metadata]
    dsimp only
    rw [if_pos hsome]
    exact refresh_metadata_rel (delKey db.metadata fid) _ _
  · intro hnd
    dsimp only
    rw [remove_node_metadata]
    dsimp only
    rw [if_pos hsome]
    exact refresh_fs_nodup _ _ _ (hAnodup hnd)
  · intro hnd q hq hmd
    dsimp only
    rw [remove_node_metadata]
    dsimp only
    rw [if_pos hsome]
    exact refresh_fs_avoid _ _ _ q (hApre q hnd hq) hmd

theorem recRel_getKey_rev {id : String} {a b : List (String × Val)} (h : recRel id a b)
    (k : String) (hk : k ≠ "fileName") : getKey? b k = getKey? a k := by
  rcases h with rfl | ⟨hn, rfl⟩
  · rfl
  · rw [getKey?_setKey, if_neg hk]

/-- C1 (amended): deleting a folder cascades to the folder's files — the
folder record and every file record whose `parentFolder` is the folder
disappear from the metadata store and their physical files disappear from
disk — but the edges document is not touched: edges referencing the deleted
nodes survive.  The files are selected by their `parentFolder` field, not by
the folder's `containedFiles` list. -/
theorem C1_amended_folder_cascade
    (s : Sys) (folder_id a b nm pa pb : String) (rf ra rb : List (String × Val))
    (h1 : getKey? s.db.metadata folder_id = some rf)
    (h2 : getKey? rf "type" = some (Val.s "folder"))
    (h3 : getStr rf "name" = some nm)
    (h3b : nm ≠ "")
    (h4 : getKey? rf "containedFiles" = some (Val.strs [a, b]))
    (h5 : ((delKey s.db.metadata folder_id).filter (fun e =>
        getKey? e.2 "parentFolder" = some (Val.s folder_id))).map Prod.fst = [a, b])
    (h6a : getKey? s.db.metadata a = some ra)
    (h6b : getKey? ra "fileName" = some (Val.s pa))
    (h7a : getKey? s.db.metadata b = some rb)
    (h7b : getKey? rb "fileName" = some (Val.s pb))
    (h8a : pyStartsWith pa (nm ++ "/") = true)
    (h8b : pyStartsWith pb (nm ++ "/") = true)
    (h9 : a ≠ b) (h9a : a ≠ folder_id) (h9b : b ≠ folder_id)
    (hsb : stripNodes pb = pb)
    (hpapb : pa ≠ pb)
    (h10 : ∀ e ∈ s.db.metadata, e.1 ≠ a → e.1 ≠ b →
      getKey? e.2 "type" = some (Val.s "file") →
      stripNodes (recFileName e.1 e.2) ≠ pa ∧ stripNodes (recFileName e.1 e.2) ≠ pb)
    (hnk : (keys s.db.metadata).Nodup)
    (hnf : s.db.fs.Nodup) :
    ∃ s1, delete_folder s folder_id = Except.ok s1 ∧
      s1.edges = s.edges ∧
      getKey? s1.db.metadata folder_id = none ∧
      getKey? s1.db.metadata a = none ∧
      getKey? s1.db.metadata b = none ∧
      pa ∉ s1.db.fs ∧ pb ∉ s1.db.fs := by
  have hslash : (nm ++ "/").data ≠ [] := by
    rw [String.data_append]
    intro hq
    exact absurd (List.append_eq_nil.mp hq).2 (by decide)
  have hpb0 : pb ≠ "" := startsWith_ne_empty pb (nm ++ "/") h8b hslash
  have hrfb : recFileName b rb = pb := by
    rw [recFileName, h7b]
    show (if pb = "" then b ++ ".txt" else pb) = pb
    rw [if_neg hpb0]
  have hDB1nodup : (s.db.fs.filter (fun pth => ¬ pyStartsWith pth (nm ++ "/"))).Nodup :=
    hnf.filter _
  have hpaDB1 : pa ∉ s.db.fs.filter (fun pth => ¬ pyStartsWith pth (nm ++ "/")) := by
    intro hmem
    exact (of_decide_eq_true (List.mem_filter.mp hmem).2) h8a
  obtain ⟨dba2, hda, hrelA, hnodA, havoidA⟩ := delete_file_spec
    { s.db with fs := s.db.fs.filter (fun pth => ¬ pyStartsWith pth (nm ++ "/")) }
    a pa ra h6a h6b
  have hgb : getKey? (delKey s.db.metadata a) b = some rb := by
    rw [getKey?_delKey s.db.metadata a b (Ne.symm h9)]
    exact h7a
  obtain ⟨rb2, hgb2, hrelb⟩ := (forall2_getKey hrelA b).2 rb hgb
  have hrb2fn : getKey? rb2 "fileName" = some (Val.s pb) := recRel_getKey hrelb h7b
  obtain ⟨dbb2, hdb, hrelB, hnodB, havoidB⟩ := delete_file_spec dba2 b pb rb2 hgb2 hrb2fn
  have hnodA2 : dba2.fs.Nodup := hnodA hDB1nodup
  have hcleanA : ∀ e ∈ delKey s.db.metadata a,
      getKey? e.2 "type" = some (Val.s "file") →
      stripNodes (recFileName e.1 e.2) ≠ pa := by
    intro e he hty
    obtain ⟨hein, hene⟩ := mem_delKey _ _ _ he
    by_cases heb : e.1 = b
    · have hgetb := getKey?_of_mem_nodup s.db.metadata hnk e hein
      rw [heb, h7a] at hgetb
      have he2 : e.2 = rb := (Option.some.inj hgetb).symm
      rw [heb, he2, hrfb, hsb]
      exact Ne.symm hpapb
    · exact (h10 e hein hene heb hty).1
  have hcleanB : ∀ e ∈ delKey dba2.metadata b,
      getKey? e.2 "type" = some (Val.s "file") →
      stripNodes (recFileName e.1 e.2) ≠ pa ∧ stripNodes (recFileName e.1 e.2) ≠ pb := by
    intro e he hty
    obtain ⟨hein, hene⟩ := mem_delKey _ _ _ he
    obtain ⟨e0, he0in, he0rel⟩ := forall2_mem hrelA e hein
    obtain ⟨he0in2, he0ne⟩ := mem_delKey _ _ _ he0in
    obtain ⟨heq1, hrel2⟩ := he0rel
    have hfn : recFileName e.1 e.2 = recFileName e0.1 e0.2 := by
      rw [heq1]
      exact recRel_fileName hrel2
    have hty0 : getKey? e0.2 "type" = some (Val.s "file") := by
      rw [← recRel_getKey_rev hrel2 "type" (by decide)]
      exact hty
    by_cases he0b : e0.1 = b
    · exact absurd (heq1.trans he0b) hene
    · rw [hfn]
      exact h10 e0 he0in2 he0ne he0b hty0
  have hcleanFinal : ∀ e ∈ delKey (delKey (delKey s.db.metadata folder_id) a) b,
      getKey? e.2 "type" = some (Val.s "file") →
      stripNodes (recFileName e.1 e.2) ≠ pa ∧ stripNodes (recFileName e.1 e.2) ≠ pb := by
    intro e he hty
    obtain ⟨he1, hneb⟩ := mem_delKey _ _ _ he
    obtain ⟨he2, hnea⟩ := mem_delKey _ _ _ he1
    obtain ⟨he3, _⟩ := mem_delKey _ _ _ he2
    exact h10 e he3 hnea hneb hty
  have hpaA : pa ∉ dba2.fs := havoidA hDB1nodup pa (Or.inr rfl) hcleanA
  have hpaB : pa ∉ dbb2.fs :=
    havoidB hnodA2 pa (Or.inl hpaA) (fun e he hty => (hcleanB e he hty).1)
  have hpbB : pb ∉ dbb2.fs :=
    havoidB hnodA2 pb (Or.inr rfl) (fun e he hty => (hcleanB e he hty).2)
  have hrun : delete_folder s folder_id = Except.ok
      { s with db := (save_metadata dbb2
          (delKey (delKey (delKey s.db.metadata folder_id) a) b)) } := by
    rw [delete_folder, h1]
    split
    · rename_i heq
      exact absurd heq (by simp)
    · rename_i rec0 heq
      obtain rfl : rf = rec0 := Option.some.inj heq
      rw [if_neg (not_not_intro h2)]
      dsimp only
      rw [h3, Option.getD_some, if_pos h3b, h5]
      rw [List.foldl_cons, List.foldl_cons, List.foldl_nil]
      dsimp only
      rw [hda]
      dsimp only
      rw [hdb]
  refine ⟨_, hrun, rfl, ?_, ?_, ?_, ?_, ?_⟩
  · apply (forall2_getKey (refresh_metadata_rel
      (delKey (delKey (delKey s.db.metadata folder_id) a) b) dbb2.fs dbb2.files_db)
      folder_id).1
    rw [getKey?_delKey _ _ _ (Ne.symm h9b), getKey?_delKey _ _ _ (Ne.symm h9a),
      getKey?_delKey_self]
  · apply (forall2_getKey (refresh_metadata_rel
      (delKey (delKey (delKey s.db.metadata folder_id) a) b) dbb2.fs dbb2.files_db) a).1
    rw [getKey?_delKey _ _ _ h9, getKey?_delKey_self]
  · apply (forall2_getKey (refresh_metadata_rel
      (delKey (delKey (delKey s.db.metadata folder_id) a) b) dbb2.fs dbb2.files_db) b).1
    rw [getKey?_delKey_self]
  · exact refresh_fs_avoid _ dbb2.fs dbb2.files_db pa hpaB
      (fun e he hty => (hcleanFinal e he hty).1)
  · exact refresh_fs_avoid _ dbb2.fs dbb2.files_db pb hpbB
      (fun e he hty => (hcleanFinal e he hty).2)

/-- C1: refuted as written — deleting the folder removes the two contained
file records from the metadata store, but the edge referencing the deleted
nodes `a` and `b` survives in the edges document: `delete_folder` never
touches edges. -/
theorem C1_counterexample :
    ∃ s1, delete_folder
        ⟨⟨[("folder_1", [("id", Val.s "folder_1"), ("type", Val.s "folder"),
              ("name", Val.s "proj"), ("containedFiles", Val.strs ["a", "b"])]),
           ("a", [("id", Val.s "a"), ("type", Val.s "file"),
              ("fileName", Val.s "proj/a.py"), ("parentFolder", Val.s "folder_1")]),
           ("b", [("id", Val.s "b"), ("type", Val.s "file"),
              ("fileName", Val.s "proj/b.py"), ("parentFolder", Val.s "folder_1")])],
          ["proj/a.py", "proj/b.py"], []⟩,
         [⟨"a", "b", "depends_on", "d"⟩]⟩ "folder_1" = Except.ok s1 ∧
      getKey? s1.db.metadata "a" = none ∧
      getKey? s1.db.metadata "b" = none ∧
      s1.edges = [⟨"a", "b", "depends_on", "d"⟩] := by
  refine ⟨_, rfl, ?_, ?_, ?_⟩ <;> decide

theorem C1_amended_folder_cascade_witness :
    ∃ s1, delete_folder
        ⟨⟨[("folder_1", [("id", Val.s "folder_1"), ("type", Val.s "folder"),
              ("name", Val.s "proj"), ("containedFiles", Val.strs ["a", "b"])]),
           ("a", [("id", Val.s "a"), ("type", Val.s "file"),
              ("fileName", Val.s "proj/a.py"), ("parentFolder", Val.s "folder_1")]),
           ("b", [("id", Val.s "b"), ("type", Val.s "file"),
              ("fileName", Val.s "proj/b.py"), ("parentFolder", Val.s "folder_1")])],
          ["proj/a.py", "proj/b.py"], []⟩,
         [⟨"b", "a", "imports", "d"⟩]⟩ "folder_1" = Except.ok s1 ∧
      s1.edges = (⟨⟨[("folder_1", [("id", Val.s "folder_1"), ("type", Val.s "folder"),
              ("name", Val.s "proj"), ("containedFiles", Val.strs ["a", "b"])]),
           ("a", [("id", Val.s "a"), ("type", Val.s "file"),
              ("fileName", Val.s "proj/a.py"), ("parentFolder", Val.s "folder_1")]),
           ("b", [("id", Val.s "b"), ("type", Val.s "file"),
              ("fileName", Val.s "proj/b.py"), ("parentFolder", Val.s "folder_1")])],
          ["proj/a.py", "proj/b.py"], []⟩,
         [⟨"b", "a", "imports", "d"⟩]⟩ : Sys).edges ∧
      getKey? s1.db.metadata "folder_1" = none ∧
      getKey? s1.db.metadata "a" = none ∧
      getKey? s1.db.metadata "b" = none ∧
      "proj/a.py" ∉ s1.db.fs ∧ "proj/b.py" ∉ s1.db.fs :=
  C1_amended_folder_cascade _ "folder_1" "a" "b" "proj" "proj/a.py" "proj/b.py"
    [("id", Val.s "folder_1"), ("type", Val.s "folder"),
      ("name", Val.s "proj"), ("containedFiles", Val.strs ["a", "b"])]
    [("id", Val.s "a"), ("type", Val.s "file"),
      ("fileName", Val.s "proj/a.py"), ("parentFolder", Val.s "folder_1")]
    [("id", Val.s "b"), ("type", Val.s "file"),
      ("fileName", Val.s "proj/b.py"), ("parentFolder", Val.s "folder_1")]
    (by decide) (by decide) (by decide) (by decide) (by decide) (by decide)
    (by decide) (by decide) (by decide) (by decide) (by decide) (by decide)
    (by decide) (by decide) (by decide) (by decide) (by decide) (by decide)
    (by decide) (by decide)

end Nody
